import Mathlib

/-!
Verification of the Knowledge-Graph Consistency & Grounded-Retrieval Engine
of the Finance_GraphRAG repository.

The Python modules are shallowly embedded as executable Lean definitions:
  * `Difflib`            — the parts of Python's `difflib.SequenceMatcher`
                           the repository calls (`ratio()`), including the
                           autojunk "popular element" rule;
  * `CitationValidator`  — `src/citation_validator.py`;
  * `QueryProcessor`     — `src/engine/query_processor.py` (`_calculateConfidence`);
  * `SupplyChain`        — `src/engine/supply_chain_reasoner.py` path query and
                           `src/engine/reasoner.py` no-path reasoning result;
  * `EntityResolverFG`   — `src/entity_resolver.py` (the stateful fuzzy resolver);
  * `Integrator`         — `src/engine/integrator.py` (`ingestPdfGraph` and its
                           class-level alias `EntityResolver`).

Text is modelled as `List Char`.  Python `\s` / `str.strip()` are modelled by
the ASCII whitespace class; `str.lower()`/`str.upper()` by the ASCII case maps
(the Korean characters appearing in the data are unaffected by case mapping).
-/

abbrev Str := List Char

section RatKernelEval

/- Batteries marks the rational-number operations `@[irreducible]`; re-enable
unfolding locally so that `decide` can evaluate the embedded scorers on
concrete inputs. -/
attribute [local semireducible] Rat.mul Rat.add Rat.inv Rat.sub Rat.ofScientific

theorem dropWhileLen {α : Type} (p : α → Bool) (l : List α) :
    (l.dropWhile p).length ≤ l.length := by
  induction l with
  | nil => simp [List.dropWhile]
  | cons a t ih =>
    by_cases h : p a = true
    · simp only [List.dropWhile, h, List.length_cons]; omega
    · simp only [List.dropWhile, h]; simp

/-- The ASCII whitespace class, modelling Python's `\s` and `str.strip()`. -/
def isPySpace (c : Char) : Bool :=
  c = ' ' ∨ c = '\t' ∨ c = '\n' ∨ c = '\r' ∨ c = Char.ofNat 11 ∨ c = Char.ofNat 12

/-- `str.strip()`: drop whitespace from both ends. -/
def pyStrip (s : Str) : Str :=
  ((s.dropWhile isPySpace).reverse.dropWhile isPySpace).reverse

/-- `str.lower()` (ASCII case map). -/
def pyLower (s : Str) : Str := s.map Char.toLower

/-- `str.upper()` (ASCII case map). -/
def pyUpper (s : Str) : Str := s.map Char.toUpper

/-- Python's substring test `needle in hay` (contiguous; `"" in s` is true). -/
def isSubstr (needle hay : Str) : Bool :=
  hay.tails.any (fun t => needle.isPrefixOf t)

def pySplitWsAux : Nat → Str → List Str
  | 0, _ => []
  | _ + 1, [] => []
  | fuel + 1, c :: rest =>
    if isPySpace c then pySplitWsAux fuel rest
    else
      (c :: rest.takeWhile (fun d => ¬ isPySpace d)) ::
        pySplitWsAux fuel (rest.dropWhile (fun d => ¬ isPySpace d))

/-- `str.split()` with no argument: maximal runs of non-whitespace. -/
def pySplitWs (s : Str) : List Str := pySplitWsAux s.length s

namespace Difflib

/-- Array-style character access with a NUL default (indices are always in
range when this is used). -/
def charAt (s : Str) (i : Nat) : Char := s.getD i (Char.ofNat 0)

/-- difflib's autojunk threshold `ntest = n // 100 + 1`. -/
def ntest (b : Str) : Nat := b.length / 100 + 1

/-- An element of `b` is "popular" junk when `b` has at least 200 elements and
the element occurs more than `ntest` times (difflib's autojunk rule, active
because the repository constructs `SequenceMatcher(None, a, b)`). -/
def isPopularJunk (b : Str) (c : Char) : Bool :=
  (200 ≤ b.length) && (ntest b < b.count c)

/-- The value difflib's `j2len` dynamic program computes: the length of the
run of equal, non-junk positions ending at `(i, j)` and staying inside
`[alo, ·) × [blo, ·)`. -/
def runLen (a b : Str) (alo blo : Nat) : Nat → Nat → Nat
  | 0, j =>
    if alo = 0 ∧ blo ≤ j ∧ charAt a 0 = charAt b j ∧
        ¬ isPopularJunk b (charAt b j) then 1 else 0
  | i + 1, 0 =>
    if alo ≤ i + 1 ∧ blo = 0 ∧ charAt a (i + 1) = charAt b 0 ∧
        ¬ isPopularJunk b (charAt b 0) then 1 else 0
  | i + 1, j + 1 =>
    if alo ≤ i + 1 ∧ blo ≤ j + 1 ∧ charAt a (i + 1) = charAt b (j + 1) ∧
        ¬ isPopularJunk b (charAt b (j + 1)) then
      runLen a b alo blo i j + 1
    else 0

/-- Scan all index pairs in the order difflib visits them (`i` ascending, then
`j` ascending), keeping the first strictly longest run; the result is the
`(besti, bestj, bestsize)` triple in start coordinates. -/
def bestScan (a b : Str) (alo blo : Nat) (ijs : List (Nat × Nat)) :
    Nat × Nat × Nat :=
  ijs.foldl
    (fun best ij =>
      let k := runLen a b alo blo ij.1 ij.2
      if best.2.2 < k then (ij.1 + 1 - k, ij.2 + 1 - k, k) else best)
    (alo, blo, 0)

/-- One of difflib's two left-extension loops (`junkFlag` selects the
non-junk pass or the junk pass). -/
def extendLeft (a b : Str) (alo blo : Nat) (junkFlag : Bool) :
    Nat → Nat × Nat × Nat → Nat × Nat × Nat
  | 0, best => best
  | fuel + 1, (bi, bj, bs) =>
    if alo < bi ∧ blo < bj ∧ isPopularJunk b (charAt b (bj - 1)) = junkFlag ∧
        charAt a (bi - 1) = charAt b (bj - 1) then
      extendLeft a b alo blo junkFlag fuel (bi - 1, bj - 1, bs + 1)
    else (bi, bj, bs)

/-- One of difflib's two right-extension loops. -/
def extendRight (a b : Str) (ahi bhi : Nat) (junkFlag : Bool) :
    Nat → Nat × Nat × Nat → Nat × Nat × Nat
  | 0, best => best
  | fuel + 1, (bi, bj, bs) =>
    if bi + bs < ahi ∧ bj + bs < bhi ∧
        isPopularJunk b (charAt b (bj + bs)) = junkFlag ∧
        charAt a (bi + bs) = charAt b (bj + bs) then
      extendRight a b ahi bhi junkFlag fuel (bi, bj, bs + 1)
    else (bi, bj, bs)

/-- `SequenceMatcher.find_longest_match` on the ranges
`a[alo:ahi]`, `b[blo:bhi]`. -/
def findLongestMatch (a b : Str) (alo ahi blo bhi : Nat) : Nat × Nat × Nat :=
  let pairs :=
    (List.range' alo (ahi - alo)).flatMap
      (fun i => (List.range' blo (bhi - blo)).map (fun j => (i, j)))
  let fuel := a.length + b.length + 1
  let best := bestScan a b alo blo pairs
  let best := extendLeft a b alo blo false fuel best
  let best := extendRight a b ahi bhi false fuel best
  let best := extendLeft a b alo blo true fuel best
  extendRight a b ahi bhi true fuel best

/-- Total size of the matching blocks produced by the recursive splitting in
`get_matching_blocks` (the sort/merge step does not change the sum).  The
fuel argument is a standard termination device; the top-level call supplies
more fuel than the recursion can consume, because every recursive call has a
strictly smaller combined range. -/
def matchSum (a b : Str) : Nat → Nat × Nat × Nat × Nat → Nat
  | 0, _ => 0
  | fuel + 1, (alo, ahi, blo, bhi) =>
    let m := findLongestMatch a b alo ahi blo bhi
    let i := m.1
    let j := m.2.1
    let k := m.2.2
    if k = 0 then 0
    else
      k + (if alo < i ∧ blo < j then matchSum a b fuel (alo, i, blo, j) else 0) +
        (if i + k < ahi ∧ j + k < bhi then
          matchSum a b fuel (i + k, ahi, j + k, bhi) else 0)

/-- `sum(size for (_, _, size) in get_matching_blocks())`. -/
def totalMatches (a b : Str) : Nat :=
  matchSum a b (a.length + b.length + 1) (0, a.length, 0, b.length)

/-- `SequenceMatcher(None, a, b).ratio()`; difflib's `_calculate_ratio`
returns 1.0 when both sequences are empty. -/
def ratioValue (a b : Str) : ℚ :=
  if a.length + b.length = 0 then 1
  else (2 * (totalMatches a b : ℚ)) / ((a.length : ℚ) + (b.length : ℚ))

end Difflib


namespace CitationValidator

/-- A caller-supplied source.  `validate_response` consults only the `id`,
`excerpt` and optional `original_sentence` entries of each source dict, so
only those are modelled. -/
structure Source where
  id : Int
  excerpt : Str
  original_sentence : Option Str
deriving DecidableEq, Repr

/-- One step of the dict comprehension `{s['id']: s for s in sources}`:
a repeated id overwrites the stored source but keeps its position. -/
def upsertById : List (Int × Source) → Source → List (Int × Source)
  | [], s => [(s.id, s)]
  | (k, v) :: t, s => if k = s.id then (k, s) :: t else (k, v) :: upsertById t s

/-- `self.sources = {s['id']: s for s in sources}`. -/
def buildSources (sources : List Source) : List (Int × Source) :=
  sources.foldl upsertById []

def lookupSource : List (Int × Source) → Int → Option Source
  | [], _ => none
  | (k, v) :: t, i => if k = i then some v else lookupSource t i

def containsId (d : List (Int × Source)) (i : Int) : Bool :=
  (lookupSource d i).isSome

/-- `max(self.sources.keys()) if self.sources else 0`. -/
def maxSourceId : List (Int × Source) → Int
  | [] => 0
  | (k, _) :: t => t.foldl (fun m p => max m p.1) k

/-- `re.findall(r'\[(\d+)\]', text)` followed by `int(...)`: every integer
enclosed in square brackets, in order of occurrence.  (Scanning may resume
inside a consumed match: a consumed match `[ddd]` contains no further `[`,
so the result is identical to the non-overlapping regex scan.) -/
def extract_citations : Str → List Nat
  | [] => []
  | c :: rest =>
    if c = '[' then
      let ds := rest.takeWhile Char.isDigit
      let after := rest.dropWhile Char.isDigit
      if ds ≠ [] ∧ after.headD (Char.ofNat 0) = ']' then
        ds.foldl (fun n d => n * 10 + (d.toNat - '0'.toNat)) 0 :: extract_citations rest
      else extract_citations rest
    else extract_citations rest

/-- `re.sub(r'\[\d+\]', '', sentence)`. -/
def stripCitationsAux : Nat → Str → Str
  | 0, s => s
  | _ + 1, [] => []
  | fuel + 1, c :: rest =>
    if c = '[' then
      let ds := rest.takeWhile Char.isDigit
      let after := rest.dropWhile Char.isDigit
      if ds ≠ [] ∧ after.headD (Char.ofNat 0) = ']' then
        stripCitationsAux fuel after.tail
      else c :: stripCitationsAux fuel rest
    else c :: stripCitationsAux fuel rest

def stripCitationMarkers (s : Str) : Str := stripCitationsAux s.length s

/-- `t.replace("\r\n", "\n")`. -/
def replaceCrLf : Str → Str
  | [] => []
  | '\r' :: '\n' :: rest => '\n' :: replaceCrLf rest
  | c :: rest => c :: replaceCrLf rest

/-- `re.sub(r"[••]\s*", "\n", t)`: a bullet and the whitespace run
after it become one newline. -/
def bulletSub : Nat → Str → Str
  | 0, s => s
  | _ + 1, [] => []
  | fuel + 1, c :: rest =>
    if c = '•' then '\n' :: bulletSub fuel (rest.dropWhile isPySpace)
    else c :: bulletSub fuel rest

/-- `re.sub(r"\n{2,}", "\n", t)`. -/
def collapseNewlines : Nat → Str → Str
  | 0, s => s
  | _ + 1, [] => []
  | fuel + 1, c :: rest =>
    if c = '\n' ∧ rest.headD (Char.ofNat 0) = '\n' then
      '\n' :: collapseNewlines fuel (rest.dropWhile (fun d => d = '\n'))
    else c :: collapseNewlines fuel rest

/-- `t.split("\n")`. -/
def splitOnNl : Str → List Str
  | [] => [[]]
  | c :: rest =>
    if c = '\n' then [] :: splitOnNl rest
    else
      match splitOnNl rest with
      | [] => [[c]]
      | h :: t => (c :: h) :: t

def isSentEnd (c : Char) : Bool := c = '.' ∨ c = '!' ∨ c = '?'

/-- `re.split(r"(?<=[.!?])\s+", ln)`: split on each whitespace run directly
preceded by sentence-ending punctuation. -/
def splitSentAux : Nat → Str → Str → List Str
  | 0, acc, s => [acc.reverse ++ s]
  | _ + 1, acc, [] => [acc.reverse]
  | fuel + 1, acc, c :: rest =>
    if isSentEnd c ∧ isPySpace (rest.headD (Char.ofNat 0)) then
      (acc.reverse ++ [c]) :: splitSentAux fuel [] (rest.dropWhile isPySpace)
    else splitSentAux fuel (c :: acc) rest

def splitSentencePunct (s : Str) : List Str := splitSentAux s.length [] s

/-- `CitationValidator._split_sentences`. -/
def split_sentences (text : Str) : List Str :=
  if text = [] then []
  else
    let t := replaceCrLf text
    let t := bulletSub t.length t
    let t := collapseNewlines t.length t
    let lines := ((splitOnNl t).map pyStrip).filter (fun ln => ln ≠ [])
    lines.flatMap (fun ln =>
      ((splitSentencePunct ln).map pyStrip).filter (fun p => p ≠ []))

/-- `CitationValidator._extract_claims_with_citations`. -/
def extract_claims_with_citations (text : Str) : List (Str × List Nat) :=
  (split_sentences text).filterMap (fun sentence =>
    let cits := extract_citations sentence
    if cits ≠ [] then
      let clean := pyStrip (stripCitationMarkers sentence)
      if 10 < clean.length then some (clean, cits) else none
    else none)

/-- The "factual signal" test: an ASCII digit (modelling `\d`), `%`, `$`,
`원`, `억` or `조`. -/
def isFactualSignal (s : Str) : Bool :=
  s.any Char.isDigit || s.contains '%' || s.contains '$' ||
    s.contains '원' || s.contains '억' || s.contains '조'

/-- `CitationValidator._extract_uncited_factual_sentences`. -/
def extract_uncited_factual_sentences (text : Str) : List Str :=
  (split_sentences text).filterMap (fun s =>
    if s = [] ∨ s.length < 25 then none
    else if (s.dropWhile isPySpace).headD (Char.ofNat 0) = '#' then none
    else if isSubstr "References".toList s ∨ isSubstr "참고".toList s then none
    else if extract_citations s ≠ [] then none
    else if isFactualSignal s then some (s.take 120)
    else none)

def stopwords : List Str :=
  (["the", "a", "an", "and", "or", "but", "in", "on", "at", "to", "for",
    "of", "with", "by", "from", "as", "is", "was", "are", "were", "be",
    "은", "는", "이", "가", "을", "를", "에", "의", "와", "과", "도", "만"]).map
    String.toList

/-- A word character in the model of Python's `\w`: ASCII alphanumeric,
underscore, or any non-ASCII character (Korean text consists of word
characters for Python's unicode `\w`). -/
def isWordChar (c : Char) : Bool :=
  c.isAlphanum || c = '_' || 127 < c.toNat

/-- `re.findall(r'\w+', s)`: maximal runs of word characters. -/
def wordRuns : Nat → Str → List Str
  | 0, _ => []
  | _ + 1, [] => []
  | fuel + 1, c :: rest =>
    if isWordChar c then
      (c :: rest.takeWhile isWordChar) :: wordRuns fuel (rest.dropWhile isWordChar)
    else wordRuns fuel rest

/-- The stopword-filtered word set of a (lowercased) string. -/
def wordSetOf (s : Str) : List Str :=
  ((wordRuns s.length s).dedup).filter (fun w => w ∉ stopwords)

/-- `CitationValidator._claim_supported_by_source` (threshold is the
method's default, 0.3, at every call site in the class). -/
def claim_supported_by_source (threshold : ℚ) (claim source_text : Str) : Bool :=
  if claim = [] ∨ source_text = [] then false
  else
    let claim_lower := pyLower claim
    let source_lower := pyLower source_text
    if isSubstr claim_lower source_lower ∨ isSubstr source_lower claim_lower then
      true
    else
      let claim_words := wordSetOf claim_lower
      let source_words := wordSetOf source_lower
      if claim_words = [] then false
      else
        let overlap : ℚ :=
          ((claim_words.filter (fun w => w ∈ source_words)).length : ℚ) /
            (claim_words.length : ℚ)
        if threshold ≤ overlap then true
        else decide (threshold ≤ Difflib.ratioValue claim_lower source_lower)

structure ValidationResult where
  is_valid : Bool
  invalid_citations : List Nat
  unsupported_claims : List Str
  missing_citations : List Str
  confidence_score : ℚ
  total_citations : Nat
  valid_citations : Int
  citation_accuracy : ℚ
  claim_support : ℚ
deriving DecidableEq, Repr

/-- `CitationValidator.validate_response`, over the id-keyed source dict. -/
def validateWith (d : List (Int × Source)) (response : Str) : ValidationResult :=
  let citations := extract_citations response
  let invalid_citations := citations.filter (fun c => ¬ containsId d (Int.ofNat c))
  let claims := extract_claims_with_citations response
  let unsupported_claims := claims.filterMap (fun cl =>
    let supported := cl.2.any (fun cid =>
      match lookupSource d (Int.ofNat cid) with
      | some s =>
        claim_supported_by_source 0.3 cl.1 s.excerpt ||
          claim_supported_by_source 0.3 cl.1 (s.original_sentence.getD s.excerpt)
      | none => false)
    if ¬ supported ∧ cl.2 ≠ [] then some (cl.1.take 100) else none)
  let missing_citations := extract_uncited_factual_sentences response
  let total_citations := citations.length
  let valid_citations : Int := (total_citations : Int) - (invalid_citations.length : Int)
  let citation_accuracy : ℚ :=
    if 0 < total_citations then (valid_citations : ℚ) / (total_citations : ℚ) else 1
  let total_claims := claims.length
  let claim_support : ℚ :=
    if 0 < total_claims then
      ((total_claims : ℚ) - (unsupported_claims.length : ℚ)) / (total_claims : ℚ)
    else 1
  let base_score : ℚ := citation_accuracy * 0.7 + claim_support * 0.3
  let confidence_score : ℚ :=
    if missing_citations ≠ [] then
      let missing_rate : ℚ :=
        min 1 ((missing_citations.length : ℚ) /
          ((max 1 (split_sentences response).length : Nat) : ℚ))
      base_score * (1 - 0.5 * missing_rate)
    else base_score
  { is_valid := invalid_citations.isEmpty && unsupported_claims.isEmpty &&
      missing_citations.isEmpty
    invalid_citations := invalid_citations
    unsupported_claims := unsupported_claims
    missing_citations := missing_citations
    confidence_score := confidence_score
    total_citations := total_citations
    valid_citations := valid_citations
    citation_accuracy := citation_accuracy
    claim_support := claim_support }

/-- A `CitationValidator` built from a sources list. -/
def validate_response (sources : List Source) (response : Str) : ValidationResult :=
  validateWith (buildSources sources) response

/-- The attributes `__init__` assigns. -/
structure ValidatorState where
  sources : List (Int × Source)
  max_sources : Int
deriving Repr

def initValidator (sources : List Source) : ValidatorState :=
  let d := buildSources sources
  { sources := d, max_sources := maxSourceId d }

/-- `validate_response` as a state transformer: the method only reads
`self.sources` and assigns no attribute, so the state passes through. -/
def validate_responseS (σ : ValidatorState) (response : Str) :
    ValidationResult × ValidatorState :=
  (validateWith σ.sources response, σ)

/-- Validating a batch of answers one after the other on one validator. -/
def validateMany (σ : ValidatorState) (rs : List Str) :
    List ValidationResult × ValidatorState :=
  rs.foldl
    (fun acc r =>
      (acc.1 ++ [(validate_responseS acc.2 r).1], (validate_responseS acc.2 r).2))
    ([], σ)

theorem validateWith_is_valid (d : List (Int × Source)) (response : Str) :
    (validateWith d response).is_valid = true ↔
      (validateWith d response).invalid_citations = [] ∧
        (validateWith d response).unsupported_claims = [] ∧
        (validateWith d response).missing_citations = [] := by
  simp only [validateWith, Bool.and_eq_true, List.isEmpty_iff]
  exact and_assoc

/-- C2: `is_valid` holds iff there are no invalid citations, no unsupported
claims and no missing-citation sentences. -/
theorem validate_response_is_valid_iff (sources : List Source) (response : Str) :
    (validate_response sources response).is_valid = true ↔
      (validate_response sources response).invalid_citations = [] ∧
        (validate_response sources response).unsupported_claims = [] ∧
        (validate_response sources response).missing_citations = [] :=
  validateWith_is_valid (buildSources sources) response

theorem validateMany_aux (σ : ValidatorState) (rs : List Str) :
    ∀ acc : List ValidationResult,
      rs.foldl
        (fun acc r =>
          (acc.1 ++ [(validate_responseS acc.2 r).1], (validate_responseS acc.2 r).2))
        (acc, σ) =
        (acc ++ rs.map (fun r => validateWith σ.sources r), σ) := by
  induction rs with
  | nil => intro acc; simp
  | cons r t ih =>
    intro acc
    simp only [List.foldl_cons, List.map_cons]
    refine (ih (acc ++ [(validate_responseS σ r).1])).trans ?_
    simp [validate_responseS]

/-- C9: the validator is pure and stateless — validating any batch of
answers leaves the validator state untouched, and each answer's result is a
function of the constructed sources alone (so results do not depend on the
order or presence of other answers). -/
theorem validate_response_pure_stateless (σ : ValidatorState) (rs : List Str) :
    (validateMany σ rs).2 = σ ∧
      (validateMany σ rs).1 = rs.map (fun r => validateWith σ.sources r) ∧
      ∀ r : Str, validate_responseS σ r = (validateWith σ.sources r, σ) := by
  refine ⟨?_, ?_, fun r => rfl⟩
  · rw [validateMany, validateMany_aux σ rs []]
  · rw [validateMany, validateMany_aux σ rs []]
    simp

theorem containsId_upsertById (d : List (Int × Source)) (s : Source) (i : Int) :
    containsId (upsertById d s) i = true ↔ containsId d i = true ∨ i = s.id := by
  induction d with
  | nil =>
    by_cases h : s.id = i
    · simp [upsertById, containsId, lookupSource, h]
    · have h' : ¬ i = s.id := fun he => h he.symm
      simp [upsertById, containsId, lookupSource, h, h']
  | cons p t ih =>
    obtain ⟨k, v⟩ := p
    by_cases hk : k = s.id
    · by_cases hik : k = i
      · have h3 : s.id = i := hk ▸ hik
        simp [upsertById, hk, containsId, lookupSource, h3]
      · have h1 : ¬ i = s.id := by rw [← hk]; exact fun he => hik he.symm
        have h2 : ¬ s.id = i := fun he => h1 he.symm
        simp [upsertById, hk, containsId, lookupSource, h1, h2]
    · by_cases hik : k = i
      · have h4 : ¬ i = s.id := hik ▸ hk
        simp [upsertById, hk, hik, containsId, lookupSource, h4]
      · simp only [upsertById, if_neg hk, containsId, lookupSource, if_neg hik]
        exact ih

theorem containsId_foldl (l : List Source) :
    ∀ (d : List (Int × Source)) (i : Int),
      containsId (l.foldl upsertById d) i = true ↔
        containsId d i = true ∨ i ∈ l.map Source.id := by
  induction l with
  | nil => intro d i; simp
  | cons s t ih =>
    intro d i
    simp only [List.foldl_cons, List.map_cons, List.mem_cons]
    rw [ih]
    rw [containsId_upsertById]
    tauto

theorem containsId_buildSources (sources : List Source) (i : Int) :
    containsId (buildSources sources) i = true ↔ i ∈ sources.map Source.id := by
  rw [buildSources, containsId_foldl]
  simp [containsId, lookupSource]

theorem validateWith_invalid (d : List (Int × Source)) (response : Str) :
    (validateWith d response).invalid_citations =
      (extract_citations response).filter (fun c => ¬ containsId d (Int.ofNat c)) := rfl

/-- C6 (counterexample): with `sources = [{id: 2, ...}]` and answer `"[2]"`,
the extracted citation 2 is greater than the number of provided sources, yet
it is not recorded as invalid — invalidity is keyed on membership in the
source-id set, not on the 1..n range. -/
theorem invalid_citations_range_counterexample :
    (validate_response [⟨2, "x".toList, none⟩] "[2]".toList).invalid_citations = [] ∧
      2 ∈ extract_citations "[2]".toList ∧
      ([(⟨2, "x".toList, none⟩ : Source)]).length < 2 := by
  refine ⟨?_, by decide, by decide⟩
  rw [validate_response, validateWith_invalid]
  decide

/-- C6 (amended): a citation id is recorded in `invalid_citations` iff it was
extracted from the answer and is not among the provided source ids; when the
source ids are exactly `1..n`, this coincides with the out-of-range test
(greater than the number of sources, or ≤ 0). -/
theorem invalid_citations_membership_amended (sources : List Source) (response : Str) :
    (∀ c : Nat,
      c ∈ (validate_response sources response).invalid_citations ↔
        c ∈ extract_citations response ∧ Int.ofNat c ∉ sources.map Source.id) ∧
    (∀ n : Nat,
      sources.map Source.id = (List.range n).map (fun i => Int.ofNat (i + 1)) →
      ∀ c : Nat,
        c ∈ (validate_response sources response).invalid_citations ↔
          c ∈ extract_citations response ∧ (n < c ∨ c = 0)) := by
  have hmem : ∀ c : Nat,
      c ∈ (validate_response sources response).invalid_citations ↔
        c ∈ extract_citations response ∧ Int.ofNat c ∉ sources.map Source.id := by
    intro c
    rw [validate_response, validateWith_invalid]
    rw [List.mem_filter]
    rw [← containsId_buildSources sources (Int.ofNat c)]
    simp
  refine ⟨hmem, fun n h c => ?_⟩
  rw [hmem c, h]
  have : (Int.ofNat c ∈ (List.range n).map (fun i => Int.ofNat (i + 1))) ↔
      (1 ≤ c ∧ c ≤ n) := by
    simp only [List.mem_map, List.mem_range]
    constructor
    · rintro ⟨i, hi, hic⟩
      have : i + 1 = c := Int.ofNat_inj.mp hic
      omega
    · rintro ⟨h1, h2⟩
      exact ⟨c - 1, by omega, congrArg Int.ofNat (by omega)⟩
  rw [this]
  constructor
  · rintro ⟨he, hr⟩; exact ⟨he, by omega⟩
  · rintro ⟨he, hr⟩; exact ⟨he, by omega⟩

theorem validateWith_total (d : List (Int × Source)) (r : Str) :
    (validateWith d r).total_citations = (extract_citations r).length := rfl

theorem validateWith_valid_count (d : List (Int × Source)) (r : Str) :
    (validateWith d r).valid_citations =
      ((extract_citations r).length : Int) -
        ((validateWith d r).invalid_citations.length : Int) := rfl

theorem validateWith_accuracy (d : List (Int × Source)) (r : Str) :
    (validateWith d r).citation_accuracy =
      if 0 < (extract_citations r).length then
        ((validateWith d r).valid_citations : ℚ) / ((extract_citations r).length : ℚ)
      else 1 := rfl

theorem validateWith_support (d : List (Int × Source)) (r : Str) :
    (validateWith d r).claim_support =
      if 0 < (extract_claims_with_citations r).length then
        (((extract_claims_with_citations r).length : ℚ) -
            ((validateWith d r).unsupported_claims.length : ℚ)) /
          ((extract_claims_with_citations r).length : ℚ)
      else 1 := rfl

theorem validateWith_missing (d : List (Int × Source)) (r : Str) :
    (validateWith d r).missing_citations = extract_uncited_factual_sentences r := rfl

theorem validateWith_confidence (d : List (Int × Source)) (r : Str) :
    (validateWith d r).confidence_score =
      if (validateWith d r).missing_citations ≠ [] then
        ((validateWith d r).citation_accuracy * 0.7 +
            (validateWith d r).claim_support * 0.3) *
          (1 - 0.5 * min 1 (((validateWith d r).missing_citations.length : ℚ) /
            ((max 1 (split_sentences r).length : Nat) : ℚ)))
      else
        (validateWith d r).citation_accuracy * 0.7 +
          (validateWith d r).claim_support * 0.3 := rfl

theorem validateWith_unsupported_le (d : List (Int × Source)) (r : Str) :
    (validateWith d r).unsupported_claims.length ≤
      (extract_claims_with_citations r).length :=
  List.length_filterMap_le _ _

theorem validateWith_invalid_le (d : List (Int × Source)) (r : Str) :
    (validateWith d r).invalid_citations.length ≤ (extract_citations r).length := by
  rw [validateWith_invalid]
  exact List.length_filter_le _ _

theorem validateWith_accuracy_bounds (d : List (Int × Source)) (r : Str) :
    0 ≤ (validateWith d r).citation_accuracy ∧
      (validateWith d r).citation_accuracy ≤ 1 := by
  rw [validateWith_accuracy]
  by_cases h : 0 < (extract_citations r).length
  · rw [if_pos h]
    have hle := validateWith_invalid_le d r
    rw [validateWith_valid_count]
    have hT : (0 : ℚ) < ((extract_citations r).length : ℚ) := by exact_mod_cast h
    constructor
    · apply div_nonneg _ hT.le
      have : (0 : Int) ≤ ((extract_citations r).length : Int) -
          ((validateWith d r).invalid_citations.length : Int) := by
        omega
      exact_mod_cast this
    · rw [div_le_one hT]
      have : ((extract_citations r).length : Int) -
          ((validateWith d r).invalid_citations.length : Int) ≤
            ((extract_citations r).length : Int) := by omega
      exact_mod_cast this
  · rw [if_neg h]
    norm_num

theorem validateWith_support_bounds (d : List (Int × Source)) (r : Str) :
    0 ≤ (validateWith d r).claim_support ∧ (validateWith d r).claim_support ≤ 1 := by
  rw [validateWith_support]
  by_cases h : 0 < (extract_claims_with_citations r).length
  · rw [if_pos h]
    have hle := validateWith_unsupported_le d r
    have hT : (0 : ℚ) < ((extract_claims_with_citations r).length : ℚ) := by
      exact_mod_cast h
    constructor
    · apply div_nonneg _ hT.le
      have : ((validateWith d r).unsupported_claims.length : ℚ) ≤
          ((extract_claims_with_citations r).length : ℚ) := by exact_mod_cast hle
      linarith
    · rw [div_le_one hT]
      have : (0 : ℚ) ≤ ((validateWith d r).unsupported_claims.length : ℚ) := by
        positivity
      linarith
  · rw [if_neg h]
    norm_num

/-- C3: the confidence score is `0.7·citationAccuracy + 0.3·claimSupport`
multiplied by `1 − 0.5·missingRate` with the missing rate capped at 1 (the
two accuracy terms being 1 when no citations resp. claims exist); hence the
missing-citation discount is at most 50 % and the score lies in `[0, 1]`. -/
theorem validate_response_confidence_formula (sources : List Source) (response : Str) :
    ((validate_response sources response).citation_accuracy =
      (if (validate_response sources response).total_citations = 0 then 1
       else ((validate_response sources response).valid_citations : ℚ) /
        ((validate_response sources response).total_citations : ℚ))) ∧
    ((validate_response sources response).claim_support =
      (if (extract_claims_with_citations response).length = 0 then 1
       else (((extract_claims_with_citations response).length : ℚ) -
          ((validate_response sources response).unsupported_claims.length : ℚ)) /
        ((extract_claims_with_citations response).length : ℚ))) ∧
    ((validate_response sources response).confidence_score =
      (0.7 * (validate_response sources response).citation_accuracy +
        0.3 * (validate_response sources response).claim_support) *
      (1 - 0.5 * min 1
        (((validate_response sources response).missing_citations.length : ℚ) /
          ((max 1 (split_sentences response).length : Nat) : ℚ)))) ∧
    ((0.7 * (validate_response sources response).citation_accuracy +
        0.3 * (validate_response sources response).claim_support) * (1 / 2) ≤
      (validate_response sources response).confidence_score) ∧
    0 ≤ (validate_response sources response).confidence_score ∧
    (validate_response sources response).confidence_score ≤ 1 := by
  simp only [validate_response]
  set D := buildSources sources with hD
  set R := response with hR
  have hca := validateWith_accuracy D R
  have hcs := validateWith_support D R
  have hcab := validateWith_accuracy_bounds D R
  have hcsb := validateWith_support_bounds D R
  have hconf := validateWith_confidence D R
  -- the missing rate and its bounds
  set rate : ℚ := min 1 (((validateWith D R).missing_citations.length : ℚ) /
    ((max 1 (split_sentences R).length : Nat) : ℚ)) with hrate
  have hrate0 : 0 ≤ rate := by
    rw [hrate]
    apply le_min (by norm_num)
    apply div_nonneg (by positivity)
    have : (0 : Nat) < max 1 (split_sentences R).length := by omega
    exact_mod_cast Nat.zero_le _
  have hrate1 : rate ≤ 1 := min_le_left _ _
  -- the base score and its bounds
  set base : ℚ := (validateWith D R).citation_accuracy * 0.7 +
    (validateWith D R).claim_support * 0.3 with hbase
  have hbase0 : 0 ≤ base := by
    rw [hbase]; nlinarith [hcab.1, hcsb.1]
  have hbase1 : base ≤ 1 := by
    rw [hbase]; nlinarith [hcab.2, hcsb.2]
  -- the code's conditional multiply equals the unconditional formula
  have hmain : (validateWith D R).confidence_score = base * (1 - 0.5 * rate) := by
    rw [hconf]
    by_cases hm : (validateWith D R).missing_citations ≠ []
    · rw [if_pos hm]
    · rw [if_neg hm]
      push_neg at hm
      have : rate = 0 := by
        rw [hrate, hm]
        simp
      rw [this]
      ring
  refine ⟨?_, ?_, ?_, ?_, ?_, ?_⟩
  · rw [hca, validateWith_total]
    by_cases h : (extract_citations R).length = 0
    · simp [h]
    · rw [if_neg h, if_pos (by omega)]
  · rw [hcs]
    by_cases h : (extract_claims_with_citations R).length = 0
    · simp [h]
    · rw [if_neg h, if_pos (by omega)]
  · rw [hmain, hbase]; ring
  · rw [hmain, hbase]
    have hmul : (1 : ℚ) / 2 ≤ 1 - 0.5 * rate := by linarith
    nlinarith
  · rw [hmain]
    have : (0 : ℚ) ≤ 1 - 0.5 * rate := by linarith
    positivity
  · rw [hmain]
    have h1 : 1 - 0.5 * rate ≤ 1 := by linarith
    have h2 : (0 : ℚ) ≤ 1 - 0.5 * rate := by linarith
    nlinarith

theorem invalid_citations_membership_amended_witness :
    (([⟨1, "a".toList, none⟩] : List Source).map Source.id =
        (List.range 1).map (fun i => Int.ofNat (i + 1))) ∧
      (2 ∈ (validate_response [⟨1, "a".toList, none⟩] "[2][1][0]".toList).invalid_citations ↔
        2 ∈ extract_citations "[2][1][0]".toList ∧ (1 < 2 ∨ 2 = 0)) :=
  ⟨by decide,
    (invalid_citations_membership_amended [⟨1, "a".toList, none⟩] "[2][1][0]".toList).2 1
      (by decide) 2⟩

end CitationValidator

namespace QueryProcessor

/-- One element of the reasoning path.  The code's scorer consults only the
length of the path list; the relationship properties carried by a step are
consulted only by the spec-side scorer below. -/
structure PathStep where
  name : Str
  relProps : List (Str × ℚ)
deriving DecidableEq, Repr

/-- The keys `_calculateConfidence` reads from the reasoning-result dict
(`path`, `entities`, `reasoning_steps`; Python truthiness of a list is
non-emptiness). -/
structure ReasoningResult where
  path : List PathStep
  entities : List Str
  reasoning_steps : List Str
deriving DecidableEq, Repr

/-- `QueryProcessor._calculateConfidence`. -/
def calculateConfidence (r : ReasoningResult) : ℚ :=
  let confidence : ℚ := 0.5
  let confidence :=
    if r.path ≠ [] then
      let confidence := confidence + 0.2
      let n := r.path.length
      if 2 ≤ n ∧ n ≤ 3 then confidence + 0.2
      else if n = 1 then confidence + 0.1
      else confidence
    else confidence
  let confidence := if r.entities ≠ [] then confidence + 0.1 else confidence
  let confidence := if r.reasoning_steps ≠ [] then confidence + 0.1 else confidence
  min confidence 1

/-- Whether some path step carries a `criticality`/`severity` relationship
property above the 0.7 threshold (the claim's high-criticality signal). -/
def hasHighCriticality (path : List PathStep) : Bool :=
  path.any (fun st => st.relProps.any (fun p =>
    decide ((p.1 = "criticality".toList ∨ p.1 = "severity".toList) ∧ (0.7 : ℚ) < p.2)))

/-- The path-shape confidence formula exactly as the claim states it.  The
number of independent paths reaching the same target is not representable in
the code's input (which carries a single path), so it is a parameter; when no
path was found it is necessarily 0. -/
def specCalculateConfidence (r : ReasoningResult) (pathsToTarget : Nat) : ℚ :=
  let c : ℚ := 0.5
  let c := if r.path ≠ [] then c + 0.2 else c
  let c :=
    if r.path ≠ [] ∧ 2 ≤ r.path.length ∧ r.path.length ≤ 3 then c + 0.2
    else if r.path ≠ [] ∧ r.path.length = 1 then c + 0.1
    else c
  let c := if 1 < pathsToTarget then c + 0.1 else c
  let c := if hasHighCriticality r.path then c + 0.1 else c
  min (max c 0) 1

/-- A reasoning result with no path but with found entities. -/
def noPathEntitiesResult : ReasoningResult :=
  { path := [], entities := ["NVIDIA".toList], reasoning_steps := [] }

/-- C4 (counterexample): on a reasoning result with no path, no reasoning
steps and one found entity, the code scores 0.6 (the +0.1 bonus is for a
non-empty `entities` list), while the claim's formula — whose last two
bonuses are path corroboration and criticality, both impossible without a
path — yields 0.5.  The claimed equality of the two scorers is false. -/
theorem calculateConfidence_spec_counterexample :
    calculateConfidence noPathEntitiesResult = 0.6 ∧
      specCalculateConfidence noPathEntitiesResult 0 = 0.5 ∧
      calculateConfidence noPathEntitiesResult ≠
        specCalculateConfidence noPathEntitiesResult 0 := by
  refine ⟨?_, ?_, ?_⟩ <;>
    simp only [calculateConfidence, specCalculateConfidence, hasHighCriticality,
      noPathEntitiesResult] <;> norm_num

/-- The scorer the code implements, written as one clamped sum: base 0.5;
+0.2 if a path was found, plus +0.2 for 2–3 hops or +0.1 for a single hop;
+0.1 if the `entities` list is non-empty; +0.1 if `reasoning_steps` is
non-empty; capped at 1.0. -/
def amendedConfidenceFormula (r : ReasoningResult) : ℚ :=
  min
    (0.5 +
      (if r.path ≠ [] then
        0.2 + (if 2 ≤ r.path.length ∧ r.path.length ≤ 3 then 0.2
          else if r.path.length = 1 then 0.1 else 0)
      else 0) +
      (if r.entities ≠ [] then 0.1 else 0) +
      (if r.reasoning_steps ≠ [] then 0.1 else 0))
    1

/-- C4 (amended): the code's path-shape score equals base 0.5, +0.2 when a
path exists, +0.2 more for a 2–3-hop path or +0.1 for a single hop, +0.1 when
entities were found, +0.1 when reasoning steps are present, capped at 1.0 —
there is no path-diversity or criticality bonus. -/
theorem calculateConfidence_amended (r : ReasoningResult) :
    calculateConfidence r = amendedConfidenceFormula r := by
  simp only [calculateConfidence, amendedConfidenceFormula]
  split_ifs <;> rfl

/-- C10: the path-shape scorer always returns a value in `[0.5, 1]` — in
particular never below the 0.5 base, even for a result with no path. -/
theorem calculateConfidence_lower_upper_bound (r : ReasoningResult) :
    1 / 2 ≤ calculateConfidence r ∧ calculateConfidence r ≤ 1 := by
  simp only [calculateConfidence]
  split_ifs <;>
    exact ⟨le_min (by norm_num) (by norm_num), min_le_right _ _⟩

end QueryProcessor

namespace SupplyChain

/-- A graph node with its name property and labels. -/
structure GNode where
  name : Str
  labels : List Str
deriving DecidableEq, Repr

/-- A directed relationship (endpoints by node name, plus its type). -/
structure GEdge where
  src : Str
  relType : Str
  tgt : Str
deriving DecidableEq, Repr

structure Graph where
  nodes : List GNode
  edges : List GEdge
deriving DecidableEq, Repr

/-- The relationship types admitted by the query's
`ALL(rel IN relationships(path) WHERE type(rel) IN [...])` filter. -/
def allowedRelTypes : List Str :=
  (["DISRUPTS", "BLOCKS", "DEPENDS_ON", "DEPENDS_ON_COMPANY",
    "REQUIRES_PROCESS", "PRODUCES", "REQUIRES_COMPONENT"]).map String.toList

def isCompany (g : Graph) (n : Str) : Bool :=
  g.nodes.any (fun nd => decide (nd.name = n ∧ "Company".toList ∈ nd.labels))

/-- All trails (edge sequences without a repeated relationship, Cypher's
variable-length semantics) of length exactly `k` out of `cur`, over allowed
relationship types; edges are identified by their index in the edge list. -/
def trailsOfLen (g : Graph) : Str → List Nat → Nat → List (List (Nat × GEdge))
  | _, _, 0 => [[]]
  | cur, used, k + 1 =>
    (g.edges.enum.filter (fun ie =>
      decide (ie.2.src = cur ∧ ie.2.relType ∈ allowedRelTypes ∧ ie.1 ∉ used))).flatMap
      (fun ie => (trailsOfLen g ie.2.tgt (ie.1 :: used) k).map (fun t => ie :: t))

/-- A path record as returned by `find_supply_chain_paths`
(`nodes`, `relationships`, `hops`). -/
structure SPath where
  nodeNames : List Str
  relTypes : List Str
  hops : Nat
deriving DecidableEq, Repr

/-- `SupplyChainReasoner.find_supply_chain_paths`: the bounded-length path
query `MATCH path = (trigger)-[*1..maxHops]->(company:Company) WHERE
trigger.name = ... AND company.name IN ... AND ALL(...) ... ORDER BY hops
ASC LIMIT 20`. -/
def find_supply_chain_paths (g : Graph) (trigger : Str) (affected : List Str)
    (maxHops : Nat) : List SPath :=
  if g.nodes.any (fun nd => nd.name = trigger) then
    (((List.range maxHops).map (· + 1)).flatMap (fun k =>
      (trailsOfLen g trigger [] k).filterMap (fun t =>
        match t.getLast? with
        | some ie =>
          if ie.2.tgt ∈ affected ∧ isCompany g ie.2.tgt then
            some { nodeNames := trigger :: t.map (fun e => e.2.tgt)
                   relTypes := t.map (fun e => e.2.relType)
                   hops := t.length }
          else none
        | none => none))).take 20
  else []

/-- Names reachable from `src` in 1 to `k` hops along allowed relationship
types (ignoring trail-uniqueness, hence a superset of trail endpoints). -/
def reachableWithin (g : Graph) : Str → Nat → List Str
  | _, 0 => []
  | src, k + 1 =>
    let oneStep := (g.edges.filter (fun e =>
      decide (e.src = src ∧ e.relType ∈ allowedRelTypes))).map GEdge.tgt
    oneStep ++ oneStep.flatMap (fun t => reachableWithin g t k)

/-- The inference an LLM produces for a non-empty path set (external
collaborator, abstracted as an oracle). -/
structure Inference where
  conclusion : Str
  confidence : ℚ
  steps : List Str

/-- The dict `MultiHopReasoner.reason` returns, restricted to the fields the
no-path contract concerns. -/
structure ReasonOutcome where
  reasoning_paths : List SPath
  inference : Str
  confidence : ℚ

/-- `MultiHopReasoner.reason` as a function of the discovered paths: with no
paths it returns the fixed no-evidence result with confidence 0.0; otherwise
the oracle-generated inference. -/
def reasonFromPaths (oracle : List SPath → Inference) (paths : List SPath) :
    ReasonOutcome :=
  if paths = [] then
    { reasoning_paths := []
      inference := "No reasoning paths found in knowledge graph.".toList
      confidence := 0 }
  else
    { reasoning_paths := paths
      inference := (oracle paths).conclusion
      confidence := (oracle paths).confidence }

theorem sndMemOfMemEnum {α : Type} {l : List α} {p : Nat × α} (h : p ∈ l.enum) :
    p.2 ∈ l := by
  obtain ⟨i, x⟩ := p
  rw [List.mk_mem_enum_iff_getElem?] at h
  exact List.getElem?_mem h

theorem mem_trailsOfLen_succ (g : Graph) (cur : Str) (used : List Nat) (k : Nat)
    (t : List (Nat × GEdge)) :
    t ∈ trailsOfLen g cur used (k + 1) ↔
      ∃ ie, ie ∈ g.edges.enum ∧ ie.2.src = cur ∧
        ie.2.relType ∈ allowedRelTypes ∧ ie.1 ∉ used ∧
        ∃ t', t' ∈ trailsOfLen g ie.2.tgt (ie.1 :: used) k ∧ t = ie :: t' := by
  conv_lhs => rw [trailsOfLen]
  simp only [List.mem_flatMap, List.mem_filter, List.mem_map, decide_eq_true_eq]
  constructor
  · rintro ⟨ie, ⟨h1, h2, h3, h4⟩, t', ht', rfl⟩
    exact ⟨ie, h1, h2, h3, h4, t', ht', rfl⟩
  · rintro ⟨ie, h1, h2, h3, h4, t', ht', rfl⟩
    exact ⟨ie, ⟨h1, h2, h3, h4⟩, t', ht', rfl⟩

theorem trailsOfLen_length (g : Graph) :
    ∀ (k : Nat) (cur : Str) (used : List Nat) (t : List (Nat × GEdge)),
      t ∈ trailsOfLen g cur used k → t.length = k := by
  intro k
  induction k with
  | zero =>
    intro cur used t ht
    rw [trailsOfLen, List.mem_singleton] at ht
    simp [ht]
  | succ k ih =>
    intro cur used t ht
    rw [mem_trailsOfLen_succ] at ht
    obtain ⟨ie, _, _, _, _, t', ht', rfl⟩ := ht
    simp [ih _ _ _ ht']

theorem mem_reachableWithin_succ (g : Graph) (src : Str) (k : Nat) (x : Str) :
    x ∈ reachableWithin g src (k + 1) ↔
      (∃ e ∈ g.edges, (e.src = src ∧ e.relType ∈ allowedRelTypes) ∧ x = e.tgt) ∨
      ∃ e ∈ g.edges, (e.src = src ∧ e.relType ∈ allowedRelTypes) ∧
        x ∈ reachableWithin g e.tgt k := by
  conv_lhs => rw [reachableWithin]
  simp only [List.mem_append, List.mem_flatMap, List.mem_map, List.mem_filter,
    decide_eq_true_eq]
  constructor
  · rintro (⟨e, ⟨he, hc⟩, rfl⟩ | ⟨t, ⟨e, ⟨he, hc⟩, rfl⟩, hx⟩)
    · exact Or.inl ⟨e, he, hc, rfl⟩
    · exact Or.inr ⟨e, he, hc, hx⟩
  · rintro (⟨e, he, hc, rfl⟩ | ⟨e, he, hc, hx⟩)
    · exact Or.inl ⟨e, ⟨he, hc⟩, rfl⟩
    · exact Or.inr ⟨e.tgt, ⟨e, ⟨he, hc⟩, rfl⟩, hx⟩

theorem reachableWithin_mono (g : Graph) :
    ∀ (k m : Nat) (src : Str) (x : Str), k ≤ m →
      x ∈ reachableWithin g src k → x ∈ reachableWithin g src m := by
  intro k
  induction k with
  | zero => intro m src x _ hx; simp [reachableWithin] at hx
  | succ k ih =>
    intro m src x hkm hx
    obtain ⟨m', rfl⟩ : ∃ m', m = m' + 1 := ⟨m - 1, by omega⟩
    rw [mem_reachableWithin_succ] at hx ⊢
    rcases hx with hx | ⟨e, he, hc, hx⟩
    · exact Or.inl hx
    · exact Or.inr ⟨e, he, hc, ih m' e.tgt x (by omega) hx⟩

theorem mem_oneStep (g : Graph) (cur : Str) (e : GEdge) (he : e ∈ g.edges)
    (hsrc : e.src = cur) (hty : e.relType ∈ allowedRelTypes) (k : Nat) :
    e.tgt ∈ reachableWithin g cur (k + 1) :=
  (mem_reachableWithin_succ g cur k e.tgt).mpr (Or.inl ⟨e, he, ⟨hsrc, hty⟩, rfl⟩)

theorem trail_end_reachable (g : Graph) :
    ∀ (k : Nat) (cur : Str) (used : List Nat) (t : List (Nat × GEdge))
      (ie : Nat × GEdge),
      t ∈ trailsOfLen g cur used (k + 1) → t.getLast? = some ie →
        ie.2.tgt ∈ reachableWithin g cur (k + 1) := by
  intro k
  induction k with
  | zero =>
    intro cur used t ie ht hlast
    rw [mem_trailsOfLen_succ] at ht
    obtain ⟨ie', hmem, hsrc, hty, _, t', ht', rfl⟩ := ht
    rw [trailsOfLen, List.mem_singleton] at ht'
    subst ht'
    simp only [List.getLast?_singleton, Option.some_inj] at hlast
    rw [← hlast]
    exact mem_oneStep g cur ie'.2 (sndMemOfMemEnum hmem) hsrc hty 0
  | succ k ih =>
    intro cur used t ie ht hlast
    rw [mem_trailsOfLen_succ] at ht
    obtain ⟨ie', hmem, hsrc, hty, _, t', ht', rfl⟩ := ht
    have hne : t' ≠ [] := by
      intro h
      have := trailsOfLen_length g (k + 1) ie'.2.tgt (ie'.1 :: used) t' ht'
      simp [h] at this
    obtain ⟨x, xs, rfl⟩ : ∃ x xs, t' = x :: xs := by
      cases t' with
      | nil => exact absurd rfl hne
      | cons x xs => exact ⟨x, xs, rfl⟩
    rw [List.getLast?_cons_cons] at hlast
    have hrec := ih ie'.2.tgt (ie'.1 :: used) (x :: xs) ie ht' hlast
    exact (mem_reachableWithin_succ g cur (k + 1) ie.2.tgt).mpr
      (Or.inr ⟨ie'.2, sndMemOfMemEnum hmem, ⟨hsrc, hty⟩, hrec⟩)

/-- C5: when no affected company is reachable from the trigger within
`maxHops` allowed hops, `find_supply_chain_paths` returns the empty list, and
the reasoning result built from an empty path list is the ordinary
no-evidence dict with confidence 0.0 — no exception is modelled anywhere. -/
theorem find_supply_chain_paths_no_path (g : Graph) (trigger : Str)
    (affected : List Str) (maxHops : Nat)
    (h : ∀ t ∈ affected, t ∉ reachableWithin g trigger maxHops) :
    find_supply_chain_paths g trigger affected maxHops = [] ∧
      ∀ oracle : List SPath → Inference,
        (reasonFromPaths oracle
            (find_supply_chain_paths g trigger affected maxHops)).confidence = 0 ∧
        (reasonFromPaths oracle
            (find_supply_chain_paths g trigger affected maxHops)).reasoning_paths = [] := by
  have hempty : find_supply_chain_paths g trigger affected maxHops = [] := by
    rw [find_supply_chain_paths]
    by_cases hn : g.nodes.any (fun nd => nd.name = trigger)
    · rw [if_pos hn]
      rw [List.eq_nil_iff_forall_not_mem]
      intro p hp
      have hp' := List.mem_of_mem_take hp
      simp only [List.mem_flatMap, List.mem_map, List.mem_range,
        List.mem_filterMap] at hp'
      obtain ⟨k, ⟨k', hk', rfl⟩, t, ht, hmatch⟩ := hp'
      rcases hlast : t.getLast? with _ | ie
      · rw [hlast] at hmatch; exact Option.noConfusion hmatch
      · rw [hlast] at hmatch
        dsimp only at hmatch
        by_cases hc : ie.2.tgt ∈ affected ∧ isCompany g ie.2.tgt = true
        · have hreach := trail_end_reachable g k' trigger [] t ie ht hlast
          have := reachableWithin_mono g (k' + 1) maxHops trigger ie.2.tgt
            (by omega) hreach
          exact h ie.2.tgt hc.1 this
        · rw [if_neg hc] at hmatch; exact Option.noConfusion hmatch
    · rw [if_neg hn]
  refine ⟨hempty, fun oracle => ?_⟩
  rw [hempty]
  exact ⟨rfl, rfl⟩

/-- A two-node graph with no relationships at all. -/
def disconnectedXY : Graph :=
  { nodes := [⟨"X".toList, []⟩, ⟨"Y".toList, ["Company".toList]⟩]
    edges := [] }

theorem find_supply_chain_paths_no_path_witness :
    (∀ t ∈ (["Y".toList] : List Str),
      t ∉ reachableWithin disconnectedXY "X".toList 3) ∧
    find_supply_chain_paths disconnectedXY "X".toList ["Y".toList] 3 = [] :=
  ⟨by decide,
    (find_supply_chain_paths_no_path disconnectedXY "X".toList ["Y".toList] 3
      (by decide)).1⟩

end SupplyChain

namespace EntityResolverFG

/-- The hard-coded Korean–English company-name table, in dict insertion
order. -/
def koreanEnglishMap : List (Str × Str) :=
  ([("삼성전자", "Samsung Electronics"), ("삼성", "Samsung"),
    ("엘지전자", "LG Electronics"), ("엘지", "LG"),
    ("현대자동차", "Hyundai Motor"), ("현대", "Hyundai"),
    ("기아", "Kia"), ("에스케이하이닉스", "SK Hynix"),
    ("네이버", "Naver"), ("카카오", "Kakao"),
    ("엔비디아", "NVIDIA"), ("애플", "Apple"),
    ("마이크로소프트", "Microsoft"), ("구글", "Google"),
    ("아마존", "Amazon"), ("테슬라", "Tesla")]).map
    (fun p => (p.1.toList, p.2.toList))

/-- The ticker/abbreviation table. -/
def abbreviationMap : List (Str × Str) :=
  ([("NVDA", "NVIDIA"), ("MSFT", "Microsoft"), ("AAPL", "Apple"),
    ("GOOGL", "Google"), ("AMZN", "Amazon"), ("TSLA", "Tesla"),
    ("META", "Meta"), ("NFLX", "Netflix")]).map
    (fun p => (p.1.toList, p.2.toList))

def lookupStr : List (Str × Str) → Str → Option Str
  | [], _ => none
  | (k, v) :: t, key => if k = key then some v else lookupStr t key

/-- The per-instance state `__init__` creates: the threshold, the
`{canonical: set of aliases}` dict and the `{raw: canonical}` cache, both in
insertion order. -/
structure ResolverState where
  similarity_threshold : ℚ
  entity_aliases : List (Str × List Str)
  normalized_cache : List (Str × Str)
deriving Repr

def initResolver (threshold : ℚ) : ResolverState :=
  { similarity_threshold := threshold, entity_aliases := [], normalized_cache := [] }

def collapseWsAux : Nat → Str → Str
  | 0, s => s
  | _ + 1, [] => []
  | fuel + 1, c :: rest =>
    if isPySpace c then ' ' :: collapseWsAux fuel (rest.dropWhile isPySpace)
    else c :: collapseWsAux fuel rest

/-- `EntityResolver._basic_normalization`: strip, then collapse each
whitespace run to a single space. -/
def basic_normalization (s : Str) : Str :=
  let t := pyStrip s
  collapseWsAux t.length t

/-- `EntityResolver._check_korean_english_mapping`: first Korean-in-name pair
wins, else first English-in-name pair (case-insensitive), rendered as
`"English (Korean)"`; otherwise the name is returned unchanged. -/
def check_korean_english_mapping (entityName : Str) : Str :=
  match koreanEnglishMap.find? (fun p => isSubstr p.1 entityName) with
  | some p => p.2 ++ " (".toList ++ p.1 ++ ")".toList
  | none =>
    match koreanEnglishMap.find? (fun p => isSubstr (pyLower p.2) (pyLower entityName)) with
    | some p => p.2 ++ " (".toList ++ p.1 ++ ")".toList
    | none => entityName

/-- `EntityResolver.fuzzy_match`: the max of the SequenceMatcher ratio, a 0.9
containment bonus, and the word-set overlap ratio. -/
def fuzzy_match (entity1 entity2 : Str) : ℚ :=
  let e1 := pyLower entity1
  let e2 := pyLower entity2
  let r := Difflib.ratioValue e1 e2
  let r := if isSubstr e1 e2 ∨ isSubstr e2 e1 then max r 0.9 else r
  let words1 := (pySplitWs e1).dedup
  let words2 := (pySplitWs e2).dedup
  if words1 ≠ [] ∧ words2 ≠ [] then
    max r (((words1.filter (fun w => w ∈ words2)).length : ℚ) /
      ((max words1.length words2.length : Nat) : ℚ))
  else r

/-- `EntityResolver._find_similar_entity`: best-scoring existing canonical
name with score above the threshold (strict improvement, iteration in key
insertion order), else the input itself. -/
def find_similar_entity (σ : ResolverState) (entityName : Str) : Str :=
  (σ.entity_aliases.foldl
    (fun best p =>
      if best.2 < fuzzy_match entityName p.1 ∧
          σ.similarity_threshold ≤ fuzzy_match entityName p.1 then
        (p.1, fuzzy_match entityName p.1)
      else best)
    (entityName, (0 : ℚ))).1

def cacheLookup (σ : ResolverState) (key : Str) : Option Str :=
  lookupStr σ.normalized_cache key

def aliasesIn : List (Str × List Str) → Str → List Str
  | [], _ => []
  | (k, v) :: t, c => if k = c then v else aliasesIn t c

/-- `self.entity_aliases.get(c, set())` as a list. -/
def aliasesOf (σ : ResolverState) (c : Str) : List Str :=
  aliasesIn σ.entity_aliases c

/-- `entity_aliases[canonical].add(entity_name)`, creating the entry if the
canonical name is new. -/
def registerAlias : List (Str × List Str) → Str → Str → List (Str × List Str)
  | [], canonical, entityName => [(canonical, [entityName])]
  | (k, v) :: t, canonical, entityName =>
    if k = canonical then
      (k, if entityName ∈ v then v else v ++ [entityName]) :: t
    else (k, v) :: registerAlias t canonical entityName

/-- `if not entity_name or not entity_name.strip()`. -/
def isBlank (s : Str) : Bool := s.isEmpty || (pyStrip s).isEmpty

/-- `EntityResolver.normalize_entity` (returns the canonical name and the
updated resolver state). -/
def normalize_entity (σ : ResolverState) (entityName : Str) : Str × ResolverState :=
  if isBlank entityName then (entityName, σ)
  else
    match cacheLookup σ entityName with
    | some c => (c, σ)
    | none =>
      let normalized := basic_normalization entityName
      let normalized :=
        match lookupStr abbreviationMap (pyUpper normalized) with
        | some full => full
        | none => normalized
      let canonical := check_korean_english_mapping normalized
      let canonical :=
        if canonical = normalized then find_similar_entity σ normalized else canonical
      (canonical,
        { σ with
          normalized_cache := σ.normalized_cache ++ [(entityName, canonical)]
          entity_aliases := registerAlias σ.entity_aliases canonical entityName })

/-- A sequence of `normalize_entity` calls on one resolver instance. -/
def runCalls (σ : ResolverState) (calls : List Str) : ResolverState :=
  calls.foldl (fun st c => (normalize_entity st c).2) σ

theorem lookupStr_append (m : List (Str × Str)) (x : Str) (v : Str) (a : Str) :
    lookupStr (m ++ [(x, v)]) a =
      match lookupStr m a with
      | some r => some r
      | none => if x = a then some v else none := by
  induction m with
  | nil => simp [lookupStr]
  | cons p t ih =>
    obtain ⟨k, w⟩ := p
    by_cases hk : k = a
    · simp [lookupStr, hk]
    · simp only [List.cons_append, lookupStr, if_neg hk]
      exact ih

theorem mem_aliasesIn_registerAlias (al : List (Str × List Str))
    (canonical entityName a c : Str) :
    a ∈ aliasesIn (registerAlias al canonical entityName) c ↔
      a ∈ aliasesIn al c ∨ (c = canonical ∧ a = entityName) := by
  induction al with
  | nil =>
    by_cases h : canonical = c
    · simp [registerAlias, aliasesIn, h, eq_comm, and_comm]
    · have h' : ¬ c = canonical := fun he => h he.symm
      simp [registerAlias, aliasesIn, h, h']
  | cons p t ih =>
    obtain ⟨k, v⟩ := p
    by_cases hk : k = canonical
    · by_cases hc : k = c
      · have hcc : c = canonical := hc ▸ hk
        by_cases hm : entityName ∈ v
        · simp only [registerAlias, if_pos hk, aliasesIn, if_pos hc]
          rw [if_pos hm]
          constructor
          · exact fun h => Or.inl h
          · rintro (h | ⟨_, rfl⟩)
            · exact h
            · exact hm
        · simp only [registerAlias, if_pos hk, aliasesIn, if_pos hc]
          rw [if_neg hm]
          simp only [List.mem_append, List.mem_singleton]
          constructor
          · rintro (h | rfl)
            · exact Or.inl h
            · exact Or.inr ⟨hcc, rfl⟩
          · rintro (h | ⟨_, rfl⟩)
            · exact Or.inl h
            · exact Or.inr rfl
      · have hne : ¬ c = canonical := fun he => hc (he ▸ hk)
        simp only [registerAlias, if_pos hk, aliasesIn, if_neg hc]
        simp [hne]
    · by_cases hc : k = c
      · simp only [registerAlias, if_neg hk, aliasesIn, if_pos hc]
        have hne : ¬ c = canonical := fun he => hk ((he ▸ hc : k = canonical))
        simp [hne]
      · simp only [registerAlias, if_neg hk, aliasesIn, if_neg hc]
        exact ih

/-- The consistency the registration code maintains: every alias registered
under a canonical name was cached to exactly that canonical name, and no
blank string is ever registered. -/
def CacheConsistent (σ : ResolverState) : Prop :=
  ∀ a c : Str, a ∈ aliasesOf σ c → isBlank a = false ∧ cacheLookup σ a = some c

theorem cacheConsistent_init (τ : ℚ) : CacheConsistent (initResolver τ) := by
  intro a c h
  simp [initResolver, aliasesOf, aliasesIn] at h

theorem cacheConsistent_step (σ : ResolverState) (x : Str)
    (h : CacheConsistent σ) : CacheConsistent (normalize_entity σ x).2 := by
  rw [normalize_entity]
  by_cases hb : isBlank x
  · rw [if_pos hb]; exact h
  · rw [if_neg hb]
    rcases hc : cacheLookup σ x with _ | c0
    · intro a c ha
      simp only [aliasesOf] at ha
      rw [mem_aliasesIn_registerAlias] at ha
      rcases ha with ha | ⟨rfl, rfl⟩
      · obtain ⟨hab, hal⟩ := h a c ha
        refine ⟨hab, ?_⟩
        simp only [cacheLookup] at hal ⊢
        rw [lookupStr_append, hal]
      · refine ⟨by simpa using hb, ?_⟩
        simp only [cacheLookup] at hc ⊢
        rw [lookupStr_append, hc]
        simp
    · exact fun a c ha => h a c ha

theorem cacheConsistent_runCalls (τ : ℚ) (calls : List Str) :
    CacheConsistent (runCalls (initResolver τ) calls) := by
  rw [runCalls]
  have : ∀ (l : List Str) (σ : ResolverState), CacheConsistent σ →
      CacheConsistent (l.foldl (fun st c => (normalize_entity st c).2) σ) := by
    intro l
    induction l with
    | nil => intro σ hσ; exact hσ
    | cons x t ih =>
      intro σ hσ
      exact ih _ (cacheConsistent_step σ x hσ)
  exact this calls _ (cacheConsistent_init τ)

/-- C8 (amended): after any sequence of `normalize_entity` calls on a
resolver with any threshold, every alias `a` registered under a canonical
name `c` resolves to exactly `c` (via the memoization cache).  Resolving the
canonical name `c` itself need not return `c`, so the original
`resolve(alias) == resolve(canonicalName)` can fail — see the
counterexample. -/
theorem normalize_entity_alias_resolves_to_canonical (τ : ℚ) (calls : List Str)
    (a c : Str) (h : a ∈ aliasesOf (runCalls (initResolver τ) calls) c) :
    (normalize_entity (runCalls (initResolver τ) calls) a).1 = c := by
  obtain ⟨hab, hal⟩ := cacheConsistent_runCalls τ calls a c h
  rw [normalize_entity, if_neg (by simp [hab]), hal]

set_option maxRecDepth 100000 in
theorem normalize_entity_alias_resolves_to_canonical_witness :
    ("NVDA".toList ∈ aliasesOf (runCalls (initResolver 0.85) ["NVDA".toList])
      "NVIDIA (엔비디아)".toList) ∧
    (normalize_entity (runCalls (initResolver 0.85) ["NVDA".toList])
      "NVDA".toList).1 = "NVIDIA (엔비디아)".toList :=
  ⟨by decide,
    normalize_entity_alias_resolves_to_canonical 0.85 ["NVDA".toList]
      "NVDA".toList "NVIDIA (엔비디아)".toList (by decide)⟩

/-- The three calls of the alias-symmetry counterexample. -/
def cxCalls : List Str := ["a (".toList, "Kia (기아)".toList, "기아".toList]

set_option maxRecDepth 100000 in
set_option maxHeartbeats 1000000 in
/-- C8 (counterexample): after normalizing `"a ("`, `"Kia (기아)"` and
`"기아"` in that order (default threshold 0.85), the alias `"기아"` is
registered under the canonical name `"Kia (기아)"` and resolves to it, but
resolving the canonical name itself returns `"a ("` (the canonical string,
taken as raw input, mapped to itself and then fuzzy-matched into the earlier
key via the 0.9 containment bonus).  So
`resolve(alias) ≠ resolve(canonicalName)`. -/
theorem alias_symmetry_counterexample :
    "기아".toList ∈ aliasesOf (runCalls (initResolver 0.85) cxCalls)
      "Kia (기아)".toList ∧
    (normalize_entity (runCalls (initResolver 0.85) cxCalls) "기아".toList).1 =
      "Kia (기아)".toList ∧
    (normalize_entity (runCalls (initResolver 0.85) cxCalls)
      "Kia (기아)".toList).1 = "a (".toList ∧
    ("a (".toList : Str) ≠ "Kia (기아)".toList := by
  exact ⟨by decide, by decide, by decide, by decide⟩

end EntityResolverFG

namespace Integrator

/-- A Neo4j parameter value as the integrator passes it: the primitive types
`filterProperties` lets through, or a non-primitive identified by its
`str(...)` rendering. -/
inductive PyVal where
  | vstr (s : Str)
  | vint (z : Int)
  | vnum (q : ℚ)
  | vbool (b : Bool)
  | vother (rendered : Str)
deriving DecidableEq, Repr

/-- An ordered list of property assignments, as a `SET` clause performs
them. -/
abbrev Writes := List (Str × PyVal)

/-- Assign one property: overwrite in place, or append a new key. -/
def setProp : List (Str × PyVal) → Str × PyVal → List (Str × PyVal)
  | [], kv => [kv]
  | (k, v) :: t, kv => if k = kv.1 then (k, kv.2) :: t else (k, v) :: setProp t kv

/-- Apply a `SET` clause left to right (`SET e += $props, e.source = ...`). -/
def applyWrites (props : List (Str × PyVal)) (w : Writes) : List (Str × PyVal) :=
  w.foldl setProp props

def propKeys (props : List (Str × PyVal)) : List Str := props.map Prod.fst

def lookupVal : List (Str × PyVal) → Str → Option PyVal
  | [], _ => none
  | (k, v) :: t, key => if k = key then some v else lookupVal t key

def writeKeys (w : Writes) : List Str := w.map Prod.fst

theorem applyWrites_nil (p : List (Str × PyVal)) : applyWrites p [] = p := rfl

theorem applyWrites_append (p : List (Str × PyVal)) (w1 w2 : Writes) :
    applyWrites p (w1 ++ w2) = applyWrites (applyWrites p w1) w2 :=
  List.foldl_append _ _ _ _

instance : Inhabited PyVal := ⟨PyVal.vstr []⟩

theorem mem_propKeys_setProp (p : List (Str × PyVal)) (kv : Str × PyVal)
    (a : Str) (h : a ∈ propKeys p) : a ∈ propKeys (setProp p kv) := by
  obtain ⟨kb, vb⟩ := kv
  induction p with
  | nil => simp [propKeys] at h
  | cons x t ih =>
    obtain ⟨k, v⟩ := x
    by_cases hk : k = kb
    · simp only [setProp, if_pos hk, propKeys, List.map_cons]
      simpa [propKeys] using h
    · simp only [propKeys, List.map_cons, List.mem_cons] at h
      simp only [setProp, if_neg hk, propKeys, List.map_cons, List.mem_cons]
      rcases h with h | h
      · exact Or.inl h
      · exact Or.inr (by simpa [propKeys] using ih (by simpa [propKeys] using h))

theorem mem_propKeys_setProp_self (p : List (Str × PyVal)) (k : Str) (v : PyVal) :
    k ∈ propKeys (setProp p (k, v)) := by
  induction p with
  | nil => simp [setProp, propKeys]
  | cons x t ih =>
    obtain ⟨k', v'⟩ := x
    by_cases hk : k' = k
    · simp [setProp, hk, propKeys]
    · simp only [setProp, if_neg hk, propKeys, List.map_cons, List.mem_cons]
      exact Or.inr (by simpa [propKeys] using ih)

theorem lookupVal_setProp_same (p : List (Str × PyVal)) (k : Str) (v : PyVal) :
    lookupVal (setProp p (k, v)) k = some v := by
  induction p with
  | nil => simp [setProp, lookupVal]
  | cons x t ih =>
    obtain ⟨k', v'⟩ := x
    by_cases hk : k' = k
    · simp [setProp, hk, lookupVal]
    · simp [setProp, hk, lookupVal, ih]

theorem lookupVal_setProp_ne (p : List (Str × PyVal)) (kv : Str × PyVal)
    (a : Str) (h : a ≠ kv.1) : lookupVal (setProp p kv) a = lookupVal p a := by
  obtain ⟨kb, vb⟩ := kv
  simp only at h
  induction p with
  | nil =>
    have : ¬ kb = a := fun he => h he.symm
    simp [setProp, lookupVal, this]
  | cons x t ih =>
    obtain ⟨k, v⟩ := x
    by_cases hk : k = kb
    · have hka : ¬ k = a := by rw [hk]; exact fun he => h he.symm
      have hba : ¬ kb = a := fun he => h he.symm
      simp [setProp, hk, lookupVal, hka, hba]
    · by_cases hka : k = a
      · simp [setProp, hk, lookupVal, hka, h]
      · simp [setProp, hk, lookupVal, hka, ih]

theorem lookupVal_isSome_of_mem (p : List (Str × PyVal)) (k : Str)
    (h : k ∈ propKeys p) : ∃ u, lookupVal p k = some u := by
  induction p with
  | nil => simp [propKeys] at h
  | cons x t ih =>
    obtain ⟨k', v'⟩ := x
    by_cases hk : k' = k
    · exact ⟨v', by simp [lookupVal, hk]⟩
    · simp only [propKeys, List.map_cons, List.mem_cons] at h
      rcases h with h | h
      · exact absurd h.symm hk
      · obtain ⟨u, hu⟩ := ih h
        exact ⟨u, by simp [lookupVal, hk, hu]⟩

theorem setProp_setProp_same (p : List (Str × PyVal)) (k : Str) (v v' : PyVal) :
    setProp (setProp p (k, v)) (k, v') = setProp p (k, v') := by
  induction p with
  | nil => simp [setProp]
  | cons x t ih =>
    obtain ⟨k', w⟩ := x
    by_cases hk : k' = k
    · simp [setProp, hk]
    · simp [setProp, hk, ih]

theorem setProp_comm (p : List (Str × PyVal)) (k1 k2 : Str) (v1 v2 : PyVal)
    (hne : k1 ≠ k2) (hk : k1 ∈ propKeys p) :
    setProp (setProp p (k1, v1)) (k2, v2) = setProp (setProp p (k2, v2)) (k1, v1) := by
  induction p with
  | nil => simp [propKeys] at hk
  | cons x t ih =>
    obtain ⟨k, v⟩ := x
    simp only [propKeys, List.map_cons, List.mem_cons] at hk
    have hne' : ¬ k2 = k1 := fun he => hne he.symm
    by_cases h1 : k = k1
    · have h2 : ¬ k = k2 := by rw [h1]; exact hne
      simp [setProp, h1, h2, hne, hne']
    · by_cases h2 : k = k2
      · simp [setProp, h1, h2, hne, hne']
      · rcases hk with hk | hk
        · exact absurd hk.symm h1
        · simp [setProp, h1, h2, ih hk]

theorem setProp_self (p : List (Str × PyVal)) (k : Str) (v : PyVal)
    (h : lookupVal p k = some v) : setProp p (k, v) = p := by
  induction p with
  | nil => simp [lookupVal] at h
  | cons x t ih =>
    obtain ⟨k', w⟩ := x
    by_cases hk : k' = k
    · subst hk
      simp only [lookupVal, if_true, reduceIte, Option.some_inj] at h
      simp [setProp, h]
    · simp only [lookupVal, if_neg hk] at h
      simp [setProp, hk, ih h]

theorem mem_propKeys_applyWrites (p : List (Str × PyVal)) (w : Writes) (a : Str)
    (h : a ∈ propKeys p) : a ∈ propKeys (applyWrites p w) := by
  induction w generalizing p with
  | nil => exact h
  | cons kv t ih =>
    exact ih (setProp p kv) (mem_propKeys_setProp p kv a h)

theorem lookupVal_applyWrites_not_written (p : List (Str × PyVal)) (w : Writes)
    (a : Str) (h : a ∉ writeKeys w) :
    lookupVal (applyWrites p w) a = lookupVal p a := by
  induction w generalizing p with
  | nil => rfl
  | cons kv t ih =>
    simp only [writeKeys, List.map_cons, List.mem_cons] at h
    push_neg at h
    rw [show applyWrites p (kv :: t) = applyWrites (setProp p kv) t from rfl]
    rw [ih (setProp p kv) h.2]
    exact lookupVal_setProp_ne p kv a h.1

theorem applyWrites_overwrite (w : Writes) :
    ∀ (p : List (Str × PyVal)) (k : Str) (v v' : PyVal), k ∈ writeKeys w →
      k ∈ propKeys p →
      applyWrites (setProp p (k, v)) w = applyWrites (setProp p (k, v')) w := by
  induction w with
  | nil => intro p k v v' hw _; simp [writeKeys] at hw
  | cons kv t ih =>
    intro p k v v' hw hp
    obtain ⟨k2, v2⟩ := kv
    by_cases hk : k2 = k
    · subst hk
      rw [show applyWrites (setProp p (k2, v)) ((k2, v2) :: t) =
        applyWrites (setProp (setProp p (k2, v)) (k2, v2)) t from rfl]
      rw [show applyWrites (setProp p (k2, v')) ((k2, v2) :: t) =
        applyWrites (setProp (setProp p (k2, v')) (k2, v2)) t from rfl]
      rw [setProp_setProp_same, setProp_setProp_same]
    · simp only [writeKeys, List.map_cons, List.mem_cons] at hw
      rcases hw with hw | hw
      · exact absurd hw.symm hk
      · rw [show applyWrites (setProp p (k, v)) ((k2, v2) :: t) =
          applyWrites (setProp (setProp p (k, v)) (k2, v2)) t from rfl]
        rw [show applyWrites (setProp p (k, v')) ((k2, v2) :: t) =
          applyWrites (setProp (setProp p (k, v')) (k2, v2)) t from rfl]
        rw [setProp_comm p k k2 v v2 (fun he => hk he.symm) hp]
        rw [setProp_comm p k k2 v' v2 (fun he => hk he.symm) hp]
        exact ih (setProp p (k2, v2)) k v v' hw (mem_propKeys_setProp p (k2, v2) k hp)

/-- Re-applying the same `SET` clause leaves the property map unchanged
(each key's final value is its last write). -/
theorem applyWrites_idem (w : Writes) :
    ∀ p : List (Str × PyVal), applyWrites (applyWrites p w) w = applyWrites p w := by
  induction w with
  | nil => intro p; rfl
  | cons kv t ih =>
    intro p
    obtain ⟨k, v⟩ := kv
    rw [show applyWrites p ((k, v) :: t) = applyWrites (setProp p (k, v)) t from rfl]
    rw [show applyWrites (applyWrites (setProp p (k, v)) t) ((k, v) :: t) =
      applyWrites (setProp (applyWrites (setProp p (k, v)) t) (k, v)) t from rfl]
    set Y := applyWrites (setProp p (k, v)) t with hY
    have hkY : k ∈ propKeys Y := by
      rw [hY]
      exact mem_propKeys_applyWrites _ _ _ (mem_propKeys_setProp_self p k v)
    by_cases hw : k ∈ writeKeys t
    · obtain ⟨u, hu⟩ := lookupVal_isSome_of_mem Y k hkY
      rw [applyWrites_overwrite t Y k v u hw hkY, setProp_self Y k u hu]
      exact ih (setProp p (k, v))
    · have hv : lookupVal Y k = some v := by
        rw [hY, lookupVal_applyWrites_not_written _ _ _ hw, lookupVal_setProp_same]
      rw [setProp_self Y k v hv]
      exact ih (setProp p (k, v))

theorem mapCongr {α β : Type} {l : List α} {f g : α → β}
    (h : ∀ a ∈ l, f a = g a) : l.map f = l.map g := by
  induction l with
  | nil => rfl
  | cons x t ih => simp [h x (by simp), ih (fun a ha => h a (by simp [ha]))]

theorem mapIdOn {α : Type} {l : List α} {f : α → α}
    (h : ∀ a ∈ l, f a = a) : l.map f = l := by
  induction l with
  | nil => rfl
  | cons x t ih => simp [h x (by simp), ih (fun a ha => h a (by simp [ha]))]

section Upsert

variable {α : Type} {κ : Type} [DecidableEq κ]
variable (keyOf : α → κ) (applyW : α → Writes → α) (mk : κ → α)

/-- One `MERGE ... SET ...` statement: update the first element with the
given key, or create a fresh one and apply the `SET` writes to it. -/
def upsertK : List α → κ → Writes → List α
  | [], key, w => [applyW (mk key) w]
  | x :: t, key, w =>
    if keyOf x = key then applyW x w :: t else x :: upsertK t key w

/-- A batch of keyed upserts, executed in order. -/
def foldUpsert (l : List α) (ops : List (κ × Writes)) : List α :=
  ops.foldl (fun acc op => upsertK keyOf applyW mk acc op.1 op.2) l

/-- All writes a batch directs at one key, concatenated in batch order. -/
def wFor (ops : List (κ × Writes)) (key : κ) : Writes :=
  (ops.filter (fun op => decide (op.1 = key))).flatMap (fun op => op.2)

/-- The fresh elements a batch creates (one per first occurrence of a key not
in `seen`), each carrying all the writes directed at its key. -/
def creationsK : List κ → List (κ × Writes) → List α
  | _, [] => []
  | seen, op :: t =>
    if op.1 ∈ seen then creationsK seen t
    else applyW (mk op.1) (op.2 ++ wFor t op.1) :: creationsK (op.1 :: seen) t

theorem wFor_nil (key : κ) : wFor ([] : List (κ × Writes)) key = [] := rfl

theorem wFor_cons (op : κ × Writes) (t : List (κ × Writes)) (key : κ) :
    wFor (op :: t) key = (if op.1 = key then op.2 else []) ++ wFor t key := by
  by_cases h : op.1 = key <;> simp [wFor, h]

theorem upsertK_of_not_mem :
    ∀ (l : List α) (key : κ) (w : Writes), key ∉ l.map keyOf →
      upsertK keyOf applyW mk l key w = l ++ [applyW (mk key) w] := by
  intro l
  induction l with
  | nil => intro key w _; rfl
  | cons x t ih =>
    intro key w h
    simp only [List.map_cons, List.mem_cons] at h
    push_neg at h
    have hxk : ¬ keyOf x = key := fun he => h.1 he.symm
    simp only [upsertK, if_neg hxk, List.cons_append]
    rw [ih key w h.2]

theorem map_keyOf_upsertK
    (hkey : ∀ x w, keyOf (applyW x w) = keyOf x)
    (hmk : ∀ k, keyOf (mk k) = k) :
    ∀ (l : List α) (key : κ) (w : Writes),
      (upsertK keyOf applyW mk l key w).map keyOf =
        if key ∈ l.map keyOf then l.map keyOf else l.map keyOf ++ [key] := by
  intro l
  induction l with
  | nil => intro key w; simp [upsertK, hkey, hmk]
  | cons x t ih =>
    intro key w
    by_cases h : keyOf x = key
    · simp [upsertK, h, hkey]
    · have h' : ¬ key = keyOf x := fun he => h he.symm
      by_cases hm : key ∈ t.map keyOf
      · simp [upsertK, h, ih, hm, h']
      · simp [upsertK, h, ih, hm, h']

theorem creationsK_congr :
    ∀ (ops : List (κ × Writes)) (s1 s2 : List κ), (∀ k, k ∈ s1 ↔ k ∈ s2) →
      creationsK applyW mk s1 ops = creationsK applyW mk s2 ops := by
  intro ops
  induction ops with
  | nil => intro s1 s2 _; rfl
  | cons op t ih =>
    intro s1 s2 h
    by_cases h1 : op.1 ∈ s1
    · rw [creationsK, creationsK, if_pos h1, if_pos ((h op.1).mp h1)]
      exact ih s1 s2 h
    · rw [creationsK, creationsK, if_neg h1, if_neg (fun hc => h1 ((h op.1).mpr hc))]
      rw [ih (op.1 :: s1) (op.1 :: s2) (fun k => by simp [h k])]

theorem map_upsertK_of_mem
    (happ : ∀ x w1 w2, applyW (applyW x w1) w2 = applyW x (w1 ++ w2))
    (hkey : ∀ x w, keyOf (applyW x w) = keyOf x) :
    ∀ (l : List α) (key : κ) (w : Writes) (t : List (κ × Writes)),
      key ∈ l.map keyOf → (l.map keyOf).Nodup →
      (upsertK keyOf applyW mk l key w).map
          (fun x => applyW x (wFor t (keyOf x))) =
        l.map (fun x => applyW x (wFor ((key, w) :: t) (keyOf x))) := by
  intro l
  induction l with
  | nil => intro key w t h _; simp at h
  | cons x rest ih =>
    intro key w t hmem hnd
    simp only [List.map_cons, List.mem_cons] at hmem
    simp only [List.map_cons, List.nodup_cons] at hnd
    by_cases h : keyOf x = key
    · simp only [upsertK, if_pos h, List.map_cons]
      congr 1
      · rw [hkey, happ, wFor_cons, if_pos (show (key, w).1 = keyOf x from h.symm)]
      · refine mapCongr (fun y hy => ?_)
        have hne : ¬ (key, w).1 = keyOf y := by
          intro he
          apply hnd.1
          rw [h]
          exact List.mem_map.mpr ⟨y, hy, he.symm⟩
        rw [wFor_cons, if_neg hne]
        simp
    · rcases hmem with hmem | hmem
      · exact absurd hmem.symm h
      · simp only [upsertK, if_neg h, List.map_cons]
        congr 1
        · rw [wFor_cons, if_neg (show ¬ (key, w).1 = keyOf x from fun hc => h hc.symm)]
          simp
        · exact ih key w t hmem hnd.2

theorem foldUpsert_char
    (hnil : ∀ x, applyW x [] = x)
    (happ : ∀ x w1 w2, applyW (applyW x w1) w2 = applyW x (w1 ++ w2))
    (hkey : ∀ x w, keyOf (applyW x w) = keyOf x)
    (hmk : ∀ k, keyOf (mk k) = k) :
    ∀ (ops : List (κ × Writes)) (l : List α) (seen : List κ),
      (∀ k, k ∈ seen ↔ k ∈ l.map keyOf) → (l.map keyOf).Nodup →
      foldUpsert keyOf applyW mk l ops =
        l.map (fun x => applyW x (wFor ops (keyOf x))) ++
          creationsK applyW mk seen ops := by
  intro ops
  induction ops with
  | nil =>
    intro l seen _ _
    simp only [foldUpsert, List.foldl_nil, creationsK, List.append_nil]
    rw [mapIdOn (fun a _ => by rw [wFor_nil, hnil])]
  | cons op t ih =>
    intro l seen hseen hnd
    obtain ⟨key, w⟩ := op
    rw [show foldUpsert keyOf applyW mk l ((key, w) :: t) =
      foldUpsert keyOf applyW mk (upsertK keyOf applyW mk l key w) t from rfl]
    by_cases hmem : key ∈ l.map keyOf
    · have hkeys : (upsertK keyOf applyW mk l key w).map keyOf = l.map keyOf := by
        rw [map_keyOf_upsertK keyOf applyW mk hkey hmk, if_pos hmem]
      rw [ih (upsertK keyOf applyW mk l key w) seen
        (fun k => by rw [hkeys]; exact hseen k) (by rw [hkeys]; exact hnd)]
      rw [map_upsertK_of_mem keyOf applyW mk happ hkey l key w t hmem hnd]
      rw [creationsK, if_pos ((hseen key).mpr hmem)]
    · have hl' : upsertK keyOf applyW mk l key w = l ++ [applyW (mk key) w] :=
        upsertK_of_not_mem keyOf applyW mk l key w hmem
      have hkeys : (upsertK keyOf applyW mk l key w).map keyOf =
          l.map keyOf ++ [key] := by
        rw [map_keyOf_upsertK keyOf applyW mk hkey hmk, if_neg hmem]
      have hnd' : ((upsertK keyOf applyW mk l key w).map keyOf).Nodup := by
        rw [hkeys]
        refine List.Nodup.append hnd (by simp) ?_
        intro a ha hb
        simp only [List.mem_singleton] at hb
        exact hmem (hb ▸ ha)
      rw [ih (upsertK keyOf applyW mk l key w) (key :: seen)
        (fun k => by
          rw [hkeys]
          simp only [List.mem_cons, List.mem_append, List.mem_singleton]
          rw [hseen k]
          tauto) hnd']
      rw [creationsK, if_neg (fun hc => hmem ((hseen key).mp hc))]
      rw [hl']
      simp only [List.map_append, List.map_cons, List.map_nil]
      rw [hkey, hmk, happ]
      have hmap : l.map (fun x => applyW x (wFor t (keyOf x))) =
          l.map (fun x => applyW x (wFor ((key, w) :: t) (keyOf x))) := by
        refine mapCongr (fun y hy => ?_)
        have hne : keyOf y ≠ key := fun he =>
          hmem (List.mem_map.mpr ⟨y, hy, he⟩)
        rw [wFor_cons, if_neg (fun hc => hne hc.symm)]
        simp
      rw [hmap]
      simp

theorem creationsK_keys_not_seen
    (hkey : ∀ x w, keyOf (applyW x w) = keyOf x)
    (hmk : ∀ k, keyOf (mk k) = k) :
    ∀ (ops : List (κ × Writes)) (seen : List κ) (k : κ),
      k ∈ (creationsK applyW mk seen ops).map keyOf → k ∉ seen := by
  intro ops
  induction ops with
  | nil => intro seen k h; simp [creationsK] at h
  | cons op t ih =>
    intro seen k h
    by_cases h1 : op.1 ∈ seen
    · rw [creationsK, if_pos h1] at h
      exact ih seen k h
    · rw [creationsK, if_neg h1] at h
      simp only [List.map_cons, List.mem_cons] at h
      rcases h with h | h
      · rw [hkey, hmk] at h
        exact h ▸ h1
      · intro hs
        exact ih (op.1 :: seen) k h (by simp [hs])

theorem creationsK_keys_nodup
    (hkey : ∀ x w, keyOf (applyW x w) = keyOf x)
    (hmk : ∀ k, keyOf (mk k) = k) :
    ∀ (ops : List (κ × Writes)) (seen : List κ),
      ((creationsK applyW mk seen ops).map keyOf).Nodup := by
  intro ops
  induction ops with
  | nil => intro seen; simp [creationsK]
  | cons op t ih =>
    intro seen
    by_cases h1 : op.1 ∈ seen
    · rw [creationsK, if_pos h1]
      exact ih seen
    · rw [creationsK, if_neg h1]
      simp only [List.map_cons, List.nodup_cons]
      refine ⟨?_, ih (op.1 :: seen)⟩
      rw [hkey, hmk]
      intro hc
      exact creationsK_keys_not_seen keyOf applyW mk hkey hmk t (op.1 :: seen)
        op.1 hc (by simp)

theorem ops_keys_covered
    (hkey : ∀ x w, keyOf (applyW x w) = keyOf x)
    (hmk : ∀ k, keyOf (mk k) = k) :
    ∀ (ops : List (κ × Writes)) (seen : List κ) (op : κ × Writes), op ∈ ops →
      op.1 ∈ seen ∨ op.1 ∈ (creationsK applyW mk seen ops).map keyOf := by
  intro ops
  induction ops with
  | nil => intro seen op h; simp at h
  | cons op0 t ih =>
    intro seen op h
    rcases List.mem_cons.mp h with rfl | h
    · by_cases h1 : op.1 ∈ seen
      · exact Or.inl h1
      · right
        rw [creationsK, if_neg h1]
        simp [hkey, hmk]
    · by_cases h1 : op0.1 ∈ seen
      · rw [creationsK, if_pos h1]
        exact ih seen op h
      · rw [creationsK, if_neg h1]
        rcases ih (op0.1 :: seen) op h with hs | hs
        · rcases List.mem_cons.mp hs with he | hs
          · right
            simp [hkey, hmk, he]
          · exact Or.inl hs
        · right
          simp only [List.map_cons, List.mem_cons]
          exact Or.inr hs

theorem creationsK_eq_nil_of_covered :
    ∀ (ops : List (κ × Writes)) (seen : List κ),
      (∀ op ∈ ops, op.1 ∈ seen) → creationsK applyW mk seen ops = ([] : List α) := by
  intro ops
  induction ops with
  | nil => intro seen _; rfl
  | cons op t ih =>
    intro seen h
    rw [creationsK, if_pos (h op (by simp))]
    exact ih seen (fun o ho => h o (by simp [ho]))

theorem creationsK_elem_spec :
    ∀ (ops : List (κ × Writes)) (seen : List κ) (y : α),
      y ∈ creationsK applyW mk seen ops →
      ∃ k, k ∉ seen ∧ y = applyW (mk k) (wFor ops k) := by
  intro ops
  induction ops with
  | nil => intro seen y h; simp [creationsK] at h
  | cons op t ih =>
    intro seen y h
    by_cases h1 : op.1 ∈ seen
    · rw [creationsK, if_pos h1] at h
      obtain ⟨k, hk, hy⟩ := ih seen y h
      refine ⟨k, hk, ?_⟩
      rw [wFor_cons, if_neg (show ¬ op.1 = k from fun hc => hk (hc ▸ h1))]
      simpa using hy
    · rw [creationsK, if_neg h1] at h
      rcases List.mem_cons.mp h with rfl | h
      · refine ⟨op.1, h1, ?_⟩
        rw [wFor_cons, if_pos rfl]
      · obtain ⟨k, hk, hy⟩ := ih (op.1 :: seen) y h
        simp only [List.mem_cons] at hk
        push_neg at hk
        refine ⟨k, hk.2, ?_⟩
        rw [wFor_cons, if_neg (fun hc => hk.1 hc.symm)]
        simpa using hy

/-- Replaying the same batch of keyed upserts leaves the keyed list
unchanged: no new elements are created, and every element re-absorbs its own
writes. -/
theorem foldUpsert_idem
    (hnil : ∀ x, applyW x [] = x)
    (happ : ∀ x w1 w2, applyW (applyW x w1) w2 = applyW x (w1 ++ w2))
    (hidem : ∀ x w, applyW x (w ++ w) = applyW x w)
    (hkey : ∀ x w, keyOf (applyW x w) = keyOf x)
    (hmk : ∀ k, keyOf (mk k) = k)
    (l : List α) (ops : List (κ × Writes))
    (hnodup : (l.map keyOf).Nodup) :
    foldUpsert keyOf applyW mk (foldUpsert keyOf applyW mk l ops) ops =
      foldUpsert keyOf applyW mk l ops := by
  have h1 := foldUpsert_char keyOf applyW mk hnil happ hkey hmk ops l
    (l.map keyOf) (fun k => Iff.rfl) hnodup
  set L1 := foldUpsert keyOf applyW mk l ops with hL1
  have hkeysL1 : L1.map keyOf =
      l.map keyOf ++ (creationsK applyW mk (l.map keyOf) ops).map keyOf := by
    rw [h1, List.map_append, List.map_map]
    congr 1
    exact mapCongr (fun a _ => hkey a _)
  have hndL1 : (L1.map keyOf).Nodup := by
    rw [hkeysL1]
    refine List.Nodup.append hnodup
      (creationsK_keys_nodup keyOf applyW mk hkey hmk ops (l.map keyOf)) ?_
    intro a ha hb
    exact creationsK_keys_not_seen keyOf applyW mk hkey hmk ops (l.map keyOf)
      a hb ha
  have hcov : ∀ op ∈ ops, op.1 ∈ L1.map keyOf := by
    intro op hop
    rw [hkeysL1, List.mem_append]
    exact ops_keys_covered keyOf applyW mk hkey hmk ops (l.map keyOf) op hop
  have h2 := foldUpsert_char keyOf applyW mk hnil happ hkey hmk ops L1
    (L1.map keyOf) (fun k => Iff.rfl) hndL1
  rw [h2]
  rw [creationsK_eq_nil_of_covered applyW mk ops (L1.map keyOf) hcov,
    List.append_nil]
  conv_lhs => rw [h1]
  rw [List.map_append, List.map_map]
  conv_rhs => rw [h1]
  congr 1
  · refine mapCongr (fun x _ => ?_)
    show applyW (applyW x (wFor ops (keyOf x)))
      (wFor ops (keyOf (applyW x (wFor ops (keyOf x))))) = _
    rw [hkey, happ, hidem]
  · refine mapIdOn (fun y hy => ?_)
    obtain ⟨k, -, hy'⟩ := creationsK_elem_spec applyW mk ops (l.map keyOf) y hy
    rw [hy']
    show applyW (applyW (mk k) (wFor ops k))
      (wFor ops (keyOf (applyW (mk k) (wFor ops k)))) = _
    rw [hkey, hmk, happ, hidem]

theorem upsertK_append_left :
    ∀ (l b : List α) (key : κ) (w : Writes), key ∈ l.map keyOf →
      upsertK keyOf applyW mk (l ++ b) key w =
        upsertK keyOf applyW mk l key w ++ b := by
  intro l
  induction l with
  | nil => intro b key w h; simp at h
  | cons x t ih =>
    intro b key w h
    by_cases hx : keyOf x = key
    · simp [upsertK, hx]
    · simp only [List.map_cons, List.mem_cons] at h
      rcases h with h | h
      · exact absurd h.symm hx
      · simp only [List.cons_append, upsertK, if_neg hx]
        rw [show t.append b = t ++ b from rfl, ih b key w h]

theorem mem_keys_upsertK
    (hkey : ∀ x w, keyOf (applyW x w) = keyOf x)
    (hmk : ∀ k, keyOf (mk k) = k)
    (l : List α) (key : κ) (w : Writes) (k : κ)
    (h : k ∈ l.map keyOf ∨ k = key) :
    k ∈ (upsertK keyOf applyW mk l key w).map keyOf := by
  rw [map_keyOf_upsertK keyOf applyW mk hkey hmk]
  by_cases hm : key ∈ l.map keyOf
  · rw [if_pos hm]
    rcases h with h | h
    · exact h
    · exact h ▸ hm
  · rw [if_neg hm]
    rcases h with h | h
    · exact List.mem_append_left _ h
    · exact List.mem_append_right _ (by simp [h])

theorem mem_keys_foldUpsert
    (hkey : ∀ x w, keyOf (applyW x w) = keyOf x)
    (hmk : ∀ k, keyOf (mk k) = k) :
    ∀ (ops : List (κ × Writes)) (l : List α) (k : κ),
      (k ∈ l.map keyOf ∨ ∃ w, (k, w) ∈ ops) →
      k ∈ (foldUpsert keyOf applyW mk l ops).map keyOf := by
  intro ops
  induction ops with
  | nil =>
    intro l k h
    rcases h with h | ⟨w, hw⟩
    · exact h
    · simp at hw
  | cons op t ih =>
    intro l k h
    show k ∈ (foldUpsert keyOf applyW mk
      (upsertK keyOf applyW mk l op.1 op.2) t).map keyOf
    apply ih
    rcases h with h | ⟨w, hw⟩
    · exact Or.inl (mem_keys_upsertK keyOf applyW mk hkey hmk l op.1 op.2 k
        (Or.inl h))
    · rcases List.mem_cons.mp hw with he | hw
      · refine Or.inl (mem_keys_upsertK keyOf applyW mk hkey hmk l op.1 op.2 k
          (Or.inr ?_))
        rw [← he]
      · exact Or.inr ⟨w, hw⟩

theorem foldUpsert_append_of_covered
    (hkey : ∀ x w, keyOf (applyW x w) = keyOf x)
    (hmk : ∀ k, keyOf (mk k) = k) :
    ∀ (ops : List (κ × Writes)) (l b : List α),
      (∀ op ∈ ops, op.1 ∈ l.map keyOf) →
      foldUpsert keyOf applyW mk (l ++ b) ops =
        foldUpsert keyOf applyW mk l ops ++ b := by
  intro ops
  induction ops with
  | nil => intro l b _; rfl
  | cons op t ih =>
    intro l b h
    show foldUpsert keyOf applyW mk (upsertK keyOf applyW mk (l ++ b) op.1 op.2) t =
      foldUpsert keyOf applyW mk (upsertK keyOf applyW mk l op.1 op.2) t ++ b
    rw [upsertK_append_left keyOf applyW mk l b op.1 op.2 (h op (by simp))]
    apply ih
    intro op' hop'
    exact mem_keys_upsertK keyOf applyW mk hkey hmk l op.1 op.2 op'.1
      (Or.inl (h op' (by simp [hop'])))

end Upsert

def isLabelChar (c : Char) : Bool :=
  ('A' ≤ c ∧ c ≤ 'Z') ∨ ('a' ≤ c ∧ c ≤ 'z') ∨ ('0' ≤ c ∧ c ≤ '9') ∨ c = '_'

/-- `DataIntegrator.sanitizeLabel`: keep `[A-Za-z0-9_]`, fall back to
`Entity`. -/
def sanitizeLabel (label : Str) : Str :=
  let cleanLabel := label.filter isLabelChar
  if cleanLabel = [] then "Entity".toList else cleanLabel

/-- `DataIntegrator.sanitizeRelType`: uppercase, keep `[A-Za-z0-9_]`, fall
back to `RELATED`. -/
def sanitizeRelType (relType : Str) : Str :=
  let cleanRelType := (pyUpper relType).filter isLabelChar
  if cleanRelType = [] then "RELATED".toList else cleanRelType

def typeMap : List (Str × Str) :=
  ([("COMPANY", "Company"), ("PERSON", "Person"), ("PRODUCT", "Product"),
    ("LOCATION", "Location"), ("FINANCIAL_METRIC", "FinancialMetric"),
    ("REGULATION", "Regulation"), ("CATALYST", "Catalyst"), ("RISK", "Risk"),
    ("TECH", "Technology")]).map (fun p => (p.1.toList, p.2.toList))

/-- `DataIntegrator.normalizeEntityType`. -/
def normalizeEntityType (entityType : Str) : Str :=
  match EntityResolverFG.lookupStr typeMap (pyUpper entityType) with
  | some l => l
  | none => "Entity".toList

/-- `DataIntegrator.filterProperties`: str/int/float/bool pass through,
anything else is stringified. -/
def filterProperties (properties : List (Str × PyVal)) : List (Str × PyVal) :=
  properties.map (fun p =>
    match p.2 with
    | PyVal.vother rendered => (p.1, PyVal.vstr rendered)
    | v => (p.1, v))

/-- The class-level alias table of the integrator's `EntityResolver`. -/
def ALIASES : List (Str × List Str) :=
  ([("Nvidia", ["NVDA", "nvidia", "NVIDIA", "Nvidia Corporation", "NVIDIA Corp"]),
    ("TSMC", ["TSM", "tsmc", "Taiwan Semiconductor",
      "Taiwan Semiconductor Manufacturing"]),
    ("Intel", ["INTC", "intel", "Intel Corporation", "Intel Corp"]),
    ("AMD", ["amd", "Advanced Micro Devices", "AMD Inc"]),
    ("Apple", ["AAPL", "apple", "Apple Inc", "Apple Inc."]),
    ("Microsoft", ["MSFT", "microsoft", "Microsoft Corporation", "Microsoft Corp"]),
    ("ASML", ["ASML", "asml", "ASML Holding"]),
    ("SK Hynix", ["000660.KS", "SK hynix", "SK Hynix Inc"]),
    ("Samsung Electronics", ["005930.KS", "Samsung", "Samsung Elec"]),
    ("Micron", ["MU", "micron", "Micron Technology"]),
    ("Applied Materials", ["AMAT", "Applied Materials Inc"]),
    ("AWS", ["AMZN", "Amazon Web Services", "Amazon AWS"]),
    ("Microsoft Azure", ["MSFT", "Azure", "MS Azure"]),
    ("Google Cloud", ["GOOGL", "GCP", "Google Cloud Platform"])]).map
    (fun p => (p.1.toList, p.2.map String.toList))

/-- `EntityResolver.resolve` (the integrator's class-method resolver):
exact/alias-table lookup first, then case-insensitive substring matching
against the alias table, else the stripped name itself. -/
def resolve (entityName : Str) : Str :=
  let entityClean := pyStrip entityName
  match ALIASES.find? (fun p => decide (entityClean ∈ p.2 ∨ entityClean = p.1)) with
  | some p => p.1
  | none =>
    match ALIASES.find? (fun p => p.2.any (fun al =>
        isSubstr (pyLower al) (pyLower entityClean) ||
          isSubstr (pyLower entityClean) (pyLower al))) with
    | some p => p.1
    | none => entityClean

/-- A stored node: its label (empty for the label-less bare nodes the edge
`MERGE (a {name: ...})` creates), its name property, and its remaining
properties. -/
structure GNode where
  label : Str
  name : Str
  props : List (Str × PyVal)
deriving DecidableEq, Repr

/-- A stored relationship, keyed by endpoint node identity and type. -/
structure GEdge where
  src : Nat
  relType : Str
  tgt : Nat
  props : List (Str × PyVal)
deriving DecidableEq, Repr

structure GraphState where
  nodes : List GNode
  edges : List GEdge
deriving DecidableEq, Repr

/-- An extracted entity record (`entity.get(...)` fields). -/
structure EntityRec where
  name : Option Str
  etype : Option Str
  properties : List (Str × PyVal)
deriving DecidableEq, Repr

/-- An extracted relationship record. -/
structure RelRec where
  source : Option Str
  target : Option Str
  rtype : Option Str
  properties : List (Str × PyVal)
deriving DecidableEq, Repr

structure GraphData where
  entities : List EntityRec
  relationships : List RelRec
deriving DecidableEq, Repr

def nodeKeyOf (n : GNode) : Str × Str := (n.label, n.name)

def nodeApplyW (n : GNode) (w : Writes) : GNode :=
  { n with props := applyWrites n.props w }

def mkNode (key : Str × Str) : GNode :=
  { label := key.1, name := key.2, props := [] }

def edgeKeyOf (e : GEdge) : Nat × Str × Nat := (e.src, e.relType, e.tgt)

def edgeApplyW (e : GEdge) (w : Writes) : GEdge :=
  { e with props := applyWrites e.props w }

def mkEdge (key : Nat × Str × Nat) : GEdge :=
  { src := key.1, relType := key.2.1, tgt := key.2.2, props := [] }

/-- The entity loop's action for one record: `None` when the record is
skipped (missing/empty name), otherwise the upsert key
`(label, canonicalName)` of `MERGE (e:label {name: $name})` together with the
`SET e += $props, e.source = 'pdf', e.source_label = ..., e.source_file =
..., e.updated_at = datetime()` write list. -/
def entityOp (sourceFile sourceLabel : Str) (now : PyVal) (e : EntityRec) :
    Option ((Str × Str) × Writes) :=
  match e.name with
  | none => none
  | some nm =>
    if nm = [] then none
    else
      some ((sanitizeLabel (normalizeEntityType (e.etype.getD "Entity".toList)),
          resolve nm),
        filterProperties e.properties ++
          [("source".toList, PyVal.vstr "pdf".toList),
           ("source_label".toList, PyVal.vstr sourceLabel),
           ("source_file".toList, PyVal.vstr sourceFile),
           ("updated_at".toList, now)])

/-- `if not name: continue` — the records the entity loop processes. -/
def entKept (e : EntityRec) : Bool :=
  match e.name with
  | some nm => decide (nm ≠ [])
  | none => false

/-- `if not source or not target: continue`. -/
def relKept (r : RelRec) : Bool :=
  match r.source, r.target with
  | some s, some t => decide (¬ (s = [] ∨ t = []))
  | _, _ => false

def hasName (nodes : List GNode) (nm : Str) : Bool :=
  nodes.any (fun n => n.name = nm)

/-- `MERGE (a {name: $x})` on its own: match any node carrying the name, else
create a bare (label-less) node with that name. -/
def ensureName (nodes : List GNode) (nm : Str) : List GNode :=
  if hasName nodes nm then nodes
  else nodes ++ [{ label := [], name := nm, props := [] }]

/-- The node a bare name-`MERGE` binds: the first node with the name. -/
def nameIdx (nodes : List GNode) (nm : Str) : Nat :=
  nodes.findIdx (fun n => n.name = nm)

/-- `SET r += $props, r.source = $sourceLabel, r.source_file = $sourceFile,
r.updated_at = datetime()`. -/
def relWrites (sourceFile sourceLabel : Str) (now : PyVal) (r : RelRec) : Writes :=
  filterProperties r.properties ++
    [("source".toList, PyVal.vstr sourceLabel),
     ("source_file".toList, PyVal.vstr sourceFile),
     ("updated_at".toList, now)]

/-- One iteration of the relationship loop: skip on missing/empty endpoint,
else `MERGE` both endpoint nodes by name and upsert the edge keyed by
`(sourceNode, relType, targetNode)`. -/
def relStep (sourceFile sourceLabel : Str) (now : PyVal) (σ : GraphState)
    (r : RelRec) : GraphState :=
  match r.source, r.target with
  | some s, some t =>
    if s = [] ∨ t = [] then σ
    else
      let nodes2 := ensureName (ensureName σ.nodes (resolve s)) (resolve t)
      { nodes := nodes2
        edges := upsertK edgeKeyOf edgeApplyW mkEdge σ.edges
          (nameIdx nodes2 (resolve s),
            sanitizeRelType (r.rtype.getD "RELATED".toList),
            nameIdx nodes2 (resolve t))
          (relWrites sourceFile sourceLabel now r) }
  | _, _ => σ

/-- The entity loop of `ingestPdfGraph`. -/
def entityPhase (σ : GraphState) (entities : List EntityRec)
    (sourceFile sourceLabel : Str) (now : PyVal) : GraphState :=
  let ops := entities.filterMap (entityOp sourceFile sourceLabel now)
  { σ with nodes := foldUpsert nodeKeyOf nodeApplyW mkNode σ.nodes ops }

/-- The relationship loop of `ingestPdfGraph`. -/
def relPhase (σ : GraphState) (rels : List RelRec)
    (sourceFile sourceLabel : Str) (now : PyVal) : GraphState :=
  rels.foldl (relStep sourceFile sourceLabel now) σ

/-- `DataIntegrator.ingestPdfGraph`: the entity loop, then the relationship
loop; `datetime()` is the parameter `now`.  Returns the graph state and the
`(entitiesMerged, relationshipsCreated)` counters, which count exactly the
non-skipped records. -/
def ingestPdfGraph (σ : GraphState) (g : GraphData)
    (sourceFile sourceLabel : Str) (now : PyVal) : GraphState × Nat × Nat :=
  let σ1 := entityPhase σ g.entities sourceFile sourceLabel now
  let σ2 := relPhase σ1 g.relationships sourceFile sourceLabel now
  (σ2, (g.entities.filter entKept).length, (g.relationships.filter relKept).length)

theorem entityOp_eq_none_iff (sf sl : Str) (now : PyVal) (e : EntityRec) :
    entityOp sf sl now e = none ↔ entKept e = false := by
  cases h : e.name with
  | none => simp [entityOp, entKept, h]
  | some nm =>
    by_cases hnm : nm = [] <;> simp [entityOp, entKept, h, hnm]

theorem filterMap_entityOp_filter (sf sl : Str) (now : PyVal)
    (l : List EntityRec) :
    (l.filter entKept).filterMap (entityOp sf sl now) =
      l.filterMap (entityOp sf sl now) := by
  induction l with
  | nil => rfl
  | cons e t ih =>
    by_cases hk : entKept e
    · simp only [List.filter_cons, hk, if_true, List.filterMap_cons]
      cases ho : entityOp sf sl now e <;> simp [ih]
    · have hnone : entityOp sf sl now e = none :=
        (entityOp_eq_none_iff sf sl now e).mpr (by simpa using hk)
      simp [List.filter_cons, hk, List.filterMap_cons, hnone, ih]

theorem relStep_skip (sf sl : Str) (now : PyVal) (σ : GraphState) (r : RelRec)
    (h : relKept r = false) : relStep sf sl now σ r = σ := by
  cases hs : r.source with
  | none => simp [relStep, hs]
  | some s =>
    cases ht : r.target with
    | none => simp [relStep, hs, ht]
    | some t =>
      simp only [relKept, hs, ht, decide_eq_false_iff_not, not_not] at h
      simp [relStep, hs, ht, h]

theorem relPhase_filter (sf sl : Str) (now : PyVal) (rels : List RelRec) :
    ∀ σ : GraphState,
      relPhase σ (rels.filter relKept) sf sl now = relPhase σ rels sf sl now := by
  induction rels with
  | nil => intro σ; rfl
  | cons r t ih =>
    intro σ
    by_cases hk : relKept r
    · simp only [relPhase, List.filter_cons, hk, if_true, List.foldl_cons]
      exact ih (relStep sf sl now σ r)
    · have hskip := relStep_skip sf sl now σ r (by simpa using hk)
      simp only [relPhase] at ih ⊢
      rw [show List.filter relKept (r :: t) = List.filter relKept t from by
        simp [List.filter_cons, hk]]
      rw [List.foldl_cons, hskip]
      exact ih σ

/-- C7: best-effort batch ingestion — an entity with a missing/empty name or
a relationship with a missing/empty endpoint is skipped while all other
records are processed exactly as if the malformed ones were absent, and the
returned counters count exactly the processed (well-formed) records. -/
theorem ingestPdfGraph_skips_malformed (σ : GraphState) (g : GraphData)
    (sourceFile sourceLabel : Str) (now : PyVal) :
    ingestPdfGraph σ g sourceFile sourceLabel now =
      ingestPdfGraph σ
        { entities := g.entities.filter entKept
          relationships := g.relationships.filter relKept }
        sourceFile sourceLabel now ∧
    (ingestPdfGraph σ g sourceFile sourceLabel now).2.1 =
      (g.entities.filter entKept).length ∧
    (ingestPdfGraph σ g sourceFile sourceLabel now).2.2 =
      (g.relationships.filter relKept).length := by
  refine ⟨?_, rfl, rfl⟩
  have he : entityPhase σ (g.entities.filter entKept) sourceFile sourceLabel now =
      entityPhase σ g.entities sourceFile sourceLabel now := by
    unfold entityPhase
    rw [filterMap_entityOp_filter]
  have hr : ∀ σ', relPhase σ' (g.relationships.filter relKept)
      sourceFile sourceLabel now = relPhase σ' g.relationships sourceFile sourceLabel now :=
    relPhase_filter sourceFile sourceLabel now g.relationships
  show (relPhase (entityPhase σ g.entities sourceFile sourceLabel now)
      g.relationships sourceFile sourceLabel now,
    (g.entities.filter entKept).length,
    (g.relationships.filter relKept).length) =
    (relPhase (entityPhase σ (g.entities.filter entKept) sourceFile sourceLabel now)
      (g.relationships.filter relKept) sourceFile sourceLabel now,
    ((g.entities.filter entKept).filter entKept).length,
    ((g.relationships.filter relKept).filter relKept).length)
  rw [he, hr]
  refine Prod.ext rfl (Prod.ext ?_ ?_) <;>
    simp [List.filter_filter, Bool.and_self]

theorem nodeApplyW_nil (n : GNode) : nodeApplyW n [] = n := rfl

theorem nodeApplyW_append (n : GNode) (w1 w2 : Writes) :
    nodeApplyW (nodeApplyW n w1) w2 = nodeApplyW n (w1 ++ w2) := by
  simp [nodeApplyW, applyWrites_append]

theorem nodeApplyW_idem (n : GNode) (w : Writes) :
    nodeApplyW n (w ++ w) = nodeApplyW n w := by
  simp [nodeApplyW, applyWrites_append, applyWrites_idem]

theorem nodeKeyOf_applyW (n : GNode) (w : Writes) :
    nodeKeyOf (nodeApplyW n w) = nodeKeyOf n := rfl

theorem nodeKeyOf_mk (k : Str × Str) : nodeKeyOf (mkNode k) = k := rfl

theorem edgeApplyW_nil (e : GEdge) : edgeApplyW e [] = e := rfl

theorem edgeApplyW_append (e : GEdge) (w1 w2 : Writes) :
    edgeApplyW (edgeApplyW e w1) w2 = edgeApplyW e (w1 ++ w2) := by
  simp [edgeApplyW, applyWrites_append]

theorem edgeApplyW_idem (e : GEdge) (w : Writes) :
    edgeApplyW e (w ++ w) = edgeApplyW e w := by
  simp [edgeApplyW, applyWrites_append, applyWrites_idem]

theorem edgeKeyOf_applyW (e : GEdge) (w : Writes) :
    edgeKeyOf (edgeApplyW e w) = edgeKeyOf e := rfl

theorem edgeKeyOf_mk (k : Nat × Str × Nat) : edgeKeyOf (mkEdge k) = k := rfl

theorem ensureName_of_hasName (ns : List GNode) (nm : Str)
    (h : hasName ns nm = true) : ensureName ns nm = ns := by
  simp [ensureName, h]

theorem ensureName_append (ns : List GNode) (nm : Str) :
    ∃ sfx : List GNode, ensureName ns nm = ns ++ sfx ∧
      ∀ n ∈ sfx, n.label = ([] : Str) := by
  by_cases h : hasName ns nm
  · exact ⟨[], by simp [ensureName, h], by simp⟩
  · refine ⟨[{ label := [], name := nm, props := [] }],
      by simp [ensureName, h], ?_⟩
    intro n hn
    simp only [List.mem_singleton] at hn
    subst hn
    rfl

theorem hasName_append_left (ns sfx : List GNode) (nm : Str)
    (h : hasName ns nm = true) : hasName (ns ++ sfx) nm = true := by
  simp only [hasName, List.any_append, Bool.or_eq_true]
  exact Or.inl (by simpa [hasName] using h)

theorem hasName_ensureName_self (ns : List GNode) (nm : Str) :
    hasName (ensureName ns nm) nm = true := by
  by_cases h : hasName ns nm
  · rw [ensureName_of_hasName ns nm h]
    exact h
  · rw [ensureName, if_neg h]
    simp [hasName, List.any_append]

theorem hasName_ensureName_mono (ns : List GNode) (nm nm' : Str)
    (h : hasName ns nm = true) : hasName (ensureName ns nm') nm = true := by
  obtain ⟨sfx, he, -⟩ := ensureName_append ns nm'
  rw [he]
  exact hasName_append_left ns sfx nm h

theorem nameIdx_append :
    ∀ (ns sfx : List GNode) (nm : Str), hasName ns nm = true →
      nameIdx (ns ++ sfx) nm = nameIdx ns nm := by
  intro ns
  induction ns with
  | nil => intro sfx nm h; simp [hasName] at h
  | cons x t ih =>
    intro sfx nm h
    by_cases hx : x.name = nm
    · simp [nameIdx, List.findIdx_cons, hx]
    · have h' : hasName t nm = true := by
        simp only [hasName, List.any_cons, Bool.or_eq_true,
          decide_eq_true_eq] at h
        rcases h with h | h
        · exact absurd h hx
        · simpa [hasName] using h
      have hstep : nameIdx (x :: (t ++ sfx)) nm = nameIdx (t ++ sfx) nm + 1 := by
        simp [nameIdx, List.findIdx_cons, hx]
      have hstep2 : nameIdx (x :: t) nm = nameIdx t nm + 1 := by
        simp [nameIdx, List.findIdx_cons, hx]
      show nameIdx (x :: (t ++ sfx)) nm = nameIdx (x :: t) nm
      rw [hstep, hstep2, ih sfx nm h']

/-- The node-side effect of one iteration of the relationship loop (the two
endpoint `MERGE`s). -/
def relNodesStep (ns : List GNode) (r : RelRec) : List GNode :=
  match r.source, r.target with
  | some s, some t =>
    if s = [] ∨ t = [] then ns
    else ensureName (ensureName ns (resolve s)) (resolve t)
  | _, _ => ns

/-- The node-side effect of the whole relationship loop. -/
def relNodes (ns : List GNode) (rels : List RelRec) : List GNode :=
  rels.foldl relNodesStep ns

/-- The edge upsert one relationship record performs, keyed against the final
node list of the loop. -/
def relOp (finalNodes : List GNode) (sourceFile sourceLabel : Str)
    (now : PyVal) (r : RelRec) : Option ((Nat × Str × Nat) × Writes) :=
  match r.source, r.target with
  | some s, some t =>
    if s = [] ∨ t = [] then none
    else some ((nameIdx finalNodes (resolve s),
        sanitizeRelType (r.rtype.getD "RELATED".toList),
        nameIdx finalNodes (resolve t)),
      relWrites sourceFile sourceLabel now r)
  | _, _ => none

theorem relNodesStep_append (ns : List GNode) (r : RelRec) :
    ∃ sfx, relNodesStep ns r = ns ++ sfx ∧ ∀ n ∈ sfx, n.label = ([] : Str) := by
  cases hs : r.source with
  | none => exact ⟨[], by simp [relNodesStep, hs], by simp⟩
  | some s =>
    cases ht : r.target with
    | none => exact ⟨[], by simp [relNodesStep, hs, ht], by simp⟩
    | some t =>
      by_cases he : s = [] ∨ t = []
      · exact ⟨[], by simp [relNodesStep, hs, ht, he], by simp⟩
      · obtain ⟨s1, h1, hl1⟩ := ensureName_append ns (resolve s)
        obtain ⟨s2, h2, hl2⟩ :=
          ensureName_append (ensureName ns (resolve s)) (resolve t)
        refine ⟨s1 ++ s2, ?_, ?_⟩
        · simp only [relNodesStep, hs, ht, if_neg he]
          rw [h2, h1, List.append_assoc]
        · intro n hn
          rcases List.mem_append.mp hn with hn | hn
          · exact hl1 n hn
          · exact hl2 n hn

theorem relNodes_append :
    ∀ (rels : List RelRec) (ns : List GNode),
      ∃ sfx, relNodes ns rels = ns ++ sfx ∧
        ∀ n ∈ sfx, n.label = ([] : Str) := by
  intro rels
  induction rels with
  | nil => intro ns; exact ⟨[], by simp [relNodes], by simp⟩
  | cons r t ih =>
    intro ns
    obtain ⟨s1, h1, hl1⟩ := relNodesStep_append ns r
    obtain ⟨s2, h2, hl2⟩ := ih (relNodesStep ns r)
    refine ⟨s1 ++ s2, ?_, ?_⟩
    · show relNodes (relNodesStep ns r) t = ns ++ (s1 ++ s2)
      rw [h2, h1, List.append_assoc]
    · intro n hn
      rcases List.mem_append.mp hn with hn | hn
      · exact hl1 n hn
      · exact hl2 n hn

theorem hasName_relNodes_mono (rels : List RelRec) (ns : List GNode) (nm : Str)
    (h : hasName ns nm = true) : hasName (relNodes ns rels) nm = true := by
  obtain ⟨sfx, he, -⟩ := relNodes_append rels ns
  rw [he]
  exact hasName_append_left ns sfx nm h

/-- The relationship loop decoupled: its node effect is `relNodes`, and its
edge effect is the batch of keyed upserts whose keys are computed against the
final node list (node indices are stable because `ensureName` only appends,
and each record's endpoint names are present as soon as its own step ran). -/
theorem relPhase_char (sf sl : Str) (now : PyVal) :
    ∀ (rels : List RelRec) (σ : GraphState),
      relPhase σ rels sf sl now =
        GraphState.mk (relNodes σ.nodes rels)
          (foldUpsert edgeKeyOf edgeApplyW mkEdge σ.edges
            (rels.filterMap (relOp (relNodes σ.nodes rels) sf sl now))) := by
  intro rels
  induction rels with
  | nil => intro σ; rfl
  | cons r t ih =>
    intro σ
    cases hs : r.source with
    | none =>
      have hstep : relStep sf sl now σ r = σ := by simp [relStep, hs]
      have hnstep : relNodesStep σ.nodes r = σ.nodes := by simp [relNodesStep, hs]
      have h0 : relPhase σ (r :: t) sf sl now = relPhase σ t sf sl now := by
        show relPhase (relStep sf sl now σ r) t sf sl now = _
        rw [hstep]
      have hF : relNodes σ.nodes (r :: t) = relNodes σ.nodes t := by
        show relNodes (relNodesStep σ.nodes r) t = _
        rw [hnstep]
      rw [h0, ih σ, hF]
      congr 1
      simp [List.filterMap_cons, relOp, hs]
    | some s =>
      cases ht : r.target with
      | none =>
        have hstep : relStep sf sl now σ r = σ := by simp [relStep, hs, ht]
        have hnstep : relNodesStep σ.nodes r = σ.nodes := by
          simp [relNodesStep, hs, ht]
        have h0 : relPhase σ (r :: t) sf sl now = relPhase σ t sf sl now := by
          show relPhase (relStep sf sl now σ r) t sf sl now = _
          rw [hstep]
        have hF : relNodes σ.nodes (r :: t) = relNodes σ.nodes t := by
          show relNodes (relNodesStep σ.nodes r) t = _
          rw [hnstep]
        rw [h0, ih σ, hF]
        congr 1
        simp [List.filterMap_cons, relOp, hs, ht]
      | some t' =>
        by_cases he : s = [] ∨ t' = []
        · have hstep : relStep sf sl now σ r = σ := by
            simp [relStep, hs, ht, he]
          have hnstep : relNodesStep σ.nodes r = σ.nodes := by
            simp [relNodesStep, hs, ht, he]
          have h0 : relPhase σ (r :: t) sf sl now = relPhase σ t sf sl now := by
            show relPhase (relStep sf sl now σ r) t sf sl now = _
            rw [hstep]
          have hF : relNodes σ.nodes (r :: t) = relNodes σ.nodes t := by
            show relNodes (relNodesStep σ.nodes r) t = _
            rw [hnstep]
          rw [h0, ih σ, hF]
          congr 1
          simp [List.filterMap_cons, relOp, hs, ht, he]
        · have hstep : relStep sf sl now σ r =
              GraphState.mk (ensureName (ensureName σ.nodes (resolve s)) (resolve t'))
                (upsertK edgeKeyOf edgeApplyW mkEdge σ.edges
                  (nameIdx (ensureName (ensureName σ.nodes (resolve s)) (resolve t')) (resolve s),
                    sanitizeRelType (r.rtype.getD "RELATED".toList),
                    nameIdx (ensureName (ensureName σ.nodes (resolve s)) (resolve t')) (resolve t'))
                  (relWrites sf sl now r)) := by
            simp [relStep, hs, ht, he]
          have hnstep : relNodesStep σ.nodes r =
              ensureName (ensureName σ.nodes (resolve s)) (resolve t') := by
            simp [relNodesStep, hs, ht, he]
          have hrs : hasName (ensureName (ensureName σ.nodes (resolve s)) (resolve t'))
              (resolve s) = true :=
            hasName_ensureName_mono _ _ _ (hasName_ensureName_self σ.nodes (resolve s))
          have hrt : hasName (ensureName (ensureName σ.nodes (resolve s)) (resolve t'))
              (resolve t') = true :=
            hasName_ensureName_self (ensureName σ.nodes (resolve s)) (resolve t')
          obtain ⟨sfx, hsfx, -⟩ :=
            relNodes_append t (ensureName (ensureName σ.nodes (resolve s)) (resolve t'))
          have hidxs : nameIdx (relNodes (ensureName (ensureName σ.nodes (resolve s))
                (resolve t')) t) (resolve s) =
              nameIdx (ensureName (ensureName σ.nodes (resolve s)) (resolve t')) (resolve s) := by
            rw [hsfx]
            exact nameIdx_append _ sfx (resolve s) hrs
          have hidxt : nameIdx (relNodes (ensureName (ensureName σ.nodes (resolve s))
                (resolve t')) t) (resolve t') =
              nameIdx (ensureName (ensureName σ.nodes (resolve s)) (resolve t')) (resolve t') := by
            rw [hsfx]
            exact nameIdx_append _ sfx (resolve t') hrt
          have hF : relNodes σ.nodes (r :: t) =
              relNodes (ensureName (ensureName σ.nodes (resolve s)) (resolve t')) t := by
            show relNodes (relNodesStep σ.nodes r) t = _
            rw [hnstep]
          have h0 : relPhase σ (r :: t) sf sl now =
              relPhase (relStep sf sl now σ r) t sf sl now := rfl
          rw [h0, hstep, ih]
          dsimp only
          rw [hF]
          congr 1
          have hcons : (r :: t).filterMap (relOp (relNodes (ensureName (ensureName σ.nodes
                (resolve s)) (resolve t')) t) sf sl now) =
              ((nameIdx (relNodes (ensureName (ensureName σ.nodes (resolve s)) (resolve t')) t) (resolve s),
                  sanitizeRelType (r.rtype.getD "RELATED".toList),
                  nameIdx (relNodes (ensureName (ensureName σ.nodes (resolve s)) (resolve t')) t) (resolve t')),
                relWrites sf sl now r) ::
                t.filterMap (relOp (relNodes (ensureName (ensureName σ.nodes (resolve s))
                  (resolve t')) t) sf sl now) := by
            simp [List.filterMap_cons, relOp, hs, ht, he]
          rw [hcons, hidxs, hidxt]
          rfl

theorem hasName_relNodes_of_mem :
    ∀ (rels : List RelRec) (ns : List GNode) (r : RelRec), r ∈ rels →
      ∀ s t', r.source = some s → r.target = some t' → ¬ (s = [] ∨ t' = []) →
      hasName (relNodes ns rels) (resolve s) = true ∧
        hasName (relNodes ns rels) (resolve t') = true := by
  intro rels
  induction rels with
  | nil => intro ns r h; simp at h
  | cons r0 t ih =>
    intro ns r hmem s t' hs ht' he
    rcases List.mem_cons.mp hmem with rfl | hmem
    · have hstep : relNodesStep ns r = ensureName (ensureName ns (resolve s)) (resolve t') := by
        simp [relNodesStep, hs, ht', he]
      have h1 : hasName (relNodesStep ns r) (resolve s) = true := by
        rw [hstep]
        exact hasName_ensureName_mono _ _ _ (hasName_ensureName_self ns (resolve s))
      have h2 : hasName (relNodesStep ns r) (resolve t') = true := by
        rw [hstep]
        exact hasName_ensureName_self _ _
      exact ⟨hasName_relNodes_mono t _ _ h1, hasName_relNodes_mono t _ _ h2⟩
    · exact ih (relNodesStep ns r0) r hmem s t' hs ht' he

theorem relNodes_fixpoint :
    ∀ (rels : List RelRec) (ns : List GNode),
      (∀ r ∈ rels, ∀ s t', r.source = some s → r.target = some t' →
        ¬ (s = [] ∨ t' = []) →
        hasName ns (resolve s) = true ∧ hasName ns (resolve t') = true) →
      relNodes ns rels = ns := by
  intro rels
  induction rels with
  | nil => intro ns _; rfl
  | cons r t ih =>
    intro ns h
    have hstep : relNodesStep ns r = ns := by
      cases hs : r.source with
      | none => simp [relNodesStep, hs]
      | some s =>
        cases ht' : r.target with
        | none => simp [relNodesStep, hs, ht']
        | some t' =>
          by_cases he : s = [] ∨ t' = []
          · simp [relNodesStep, hs, ht', he]
          · obtain ⟨h1, h2⟩ := h r (by simp) s t' hs ht' he
            simp only [relNodesStep, hs, ht', if_neg he]
            rw [ensureName_of_hasName ns (resolve s) h1,
              ensureName_of_hasName ns (resolve t') h2]
    show relNodes (relNodesStep ns r) t = ns
    rw [hstep]
    exact ih ns (fun r' hr' => h r' (by simp [hr']))

theorem sanitizeLabel_ne_nil (l : Str) : sanitizeLabel l ≠ [] := by
  simp only [sanitizeLabel]
  by_cases h : List.filter isLabelChar l = []
  · simp only [h, if_true]
    decide
  · simp [h]

theorem entityOp_key_fst_ne_nil (sf sl : Str) (now : PyVal) (e : EntityRec)
    (op : (Str × Str) × Writes) (h : entityOp sf sl now e = some op) :
    op.1.1 ≠ [] := by
  cases hn : e.name with
  | none => simp [entityOp, hn] at h
  | some nm =>
    by_cases hnm : nm = []
    · simp [entityOp, hn, hnm] at h
    · simp only [entityOp, hn, if_neg hnm, Option.some_inj] at h
      rw [← h]
      exact sanitizeLabel_ne_nil _

/-- A concrete batch for the idempotence witness: one well-formed entity (an
alias of Nvidia), one skipped entity, one well-formed relationship and one
skipped relationship. -/
def gW : GraphData :=
  { entities :=
      [ { name := some "NVDA".toList, etype := some "COMPANY".toList,
          properties := [("sector".toList, PyVal.vstr "semis".toList)] },
        { name := none, etype := some "COMPANY".toList, properties := [] } ],
    relationships :=
      [ { source := some "NVDA".toList, target := some "TSMC".toList,
          rtype := some "supplied by".toList, properties := [] },
        { source := some "Intel".toList, target := none, rtype := none,
          properties := [] } ] }

/-- C1: upsert idempotence — for every initial graph state whose node keys
`(label, name)` and edge keys `(sourceNode, relType, targetNode)` are
duplicate-free, running `ingestPdfGraph` twice on the same
`(entities, relationships)` batch produces graph state identical to running
it once: entity upserts are keyed by label and canonical name, edge upserts
by the `(source, type, target)` triple, so the second run creates no
duplicate nodes or edges and only re-merges the same properties. -/
theorem ingestPdfGraph_idempotent (σ : GraphState) (g : GraphData)
    (sourceFile sourceLabel : Str) (now : PyVal)
    (hWF : (σ.nodes.map nodeKeyOf).Nodup ∧ (σ.edges.map edgeKeyOf).Nodup) :
    (ingestPdfGraph (ingestPdfGraph σ g sourceFile sourceLabel now).1
        g sourceFile sourceLabel now).1 =
      (ingestPdfGraph σ g sourceFile sourceLabel now).1 := by
  obtain ⟨hWFn, hWFe⟩ := hWF
  set E := g.entities.filterMap (entityOp sourceFile sourceLabel now) with hE
  set N1 := foldUpsert nodeKeyOf nodeApplyW mkNode σ.nodes E with hN1
  set F := relNodes N1 g.relationships with hFdef
  set ops := g.relationships.filterMap (relOp F sourceFile sourceLabel now) with hops
  set G2 := foldUpsert edgeKeyOf edgeApplyW mkEdge σ.edges ops with hG2
  have hσ1 : entityPhase σ g.entities sourceFile sourceLabel now =
      GraphState.mk N1 σ.edges := by
    rw [hN1, hE]
    rfl
  have hσ2 : (ingestPdfGraph σ g sourceFile sourceLabel now).1 =
      GraphState.mk F G2 := by
    show relPhase (entityPhase σ g.entities sourceFile sourceLabel now)
      g.relationships sourceFile sourceLabel now = GraphState.mk F G2
    rw [hσ1, relPhase_char sourceFile sourceLabel now g.relationships
      (GraphState.mk N1 σ.edges)]
  have hcovE : ∀ op ∈ E, op.1 ∈ N1.map nodeKeyOf := by
    intro op hop
    rw [hN1]
    exact mem_keys_foldUpsert nodeKeyOf nodeApplyW mkNode nodeKeyOf_applyW
      nodeKeyOf_mk E σ.nodes op.1 (Or.inr ⟨op.2, hop⟩)
  obtain ⟨sfx, hsfx, -⟩ := relNodes_append g.relationships N1
  have hFs : F = N1 ++ sfx := hFdef.trans hsfx
  have hEnt2 : foldUpsert nodeKeyOf nodeApplyW mkNode F E = F := by
    rw [hFs, foldUpsert_append_of_covered nodeKeyOf nodeApplyW mkNode
      nodeKeyOf_applyW nodeKeyOf_mk E N1 sfx hcovE, hN1,
      foldUpsert_idem nodeKeyOf nodeApplyW mkNode nodeApplyW_nil
        nodeApplyW_append nodeApplyW_idem nodeKeyOf_applyW nodeKeyOf_mk
        σ.nodes E hWFn]
  have hEph2 : entityPhase (GraphState.mk F G2) g.entities sourceFile
      sourceLabel now = GraphState.mk F G2 := by
    show GraphState.mk (foldUpsert nodeKeyOf nodeApplyW mkNode F
      (g.entities.filterMap (entityOp sourceFile sourceLabel now))) G2 =
      GraphState.mk F G2
    rw [← hE, hEnt2]
  have hpres : ∀ r ∈ g.relationships, ∀ s t', r.source = some s →
      r.target = some t' → ¬ (s = [] ∨ t' = []) →
      hasName F (resolve s) = true ∧ hasName F (resolve t') = true := by
    intro r hr s t' hs ht' he
    rw [hFdef]
    exact hasName_relNodes_of_mem g.relationships N1 r hr s t' hs ht' he
  have hFfix : relNodes F g.relationships = F :=
    relNodes_fixpoint g.relationships F hpres
  have hrun2 : (ingestPdfGraph (GraphState.mk F G2) g sourceFile sourceLabel
      now).1 = GraphState.mk F G2 := by
    show relPhase (entityPhase (GraphState.mk F G2) g.entities sourceFile
      sourceLabel now) g.relationships sourceFile sourceLabel now =
      GraphState.mk F G2
    rw [hEph2, relPhase_char sourceFile sourceLabel now g.relationships
      (GraphState.mk F G2)]
    dsimp only
    rw [hFfix, ← hops]
    congr 1
    rw [hG2]
    exact foldUpsert_idem edgeKeyOf edgeApplyW mkEdge edgeApplyW_nil
      edgeApplyW_append edgeApplyW_idem edgeKeyOf_applyW edgeKeyOf_mk
      σ.edges ops hWFe
  rw [hσ2]
  exact hrun2

/-- Witness for C1: on the empty graph and the concrete batch `gW`, the
duplicate-free-keys hypothesis holds and running the upsert twice equals
running it once. -/
theorem ingestPdfGraph_idempotent_witness :
    ((([] : List GNode).map nodeKeyOf).Nodup ∧
      (([] : List GEdge).map edgeKeyOf).Nodup) ∧
    (ingestPdfGraph (ingestPdfGraph (GraphState.mk [] []) gW "doc.pdf".toList
        "PDF".toList (PyVal.vstr "t0".toList)).1 gW "doc.pdf".toList
        "PDF".toList (PyVal.vstr "t0".toList)).1 =
      (ingestPdfGraph (GraphState.mk [] []) gW "doc.pdf".toList "PDF".toList
        (PyVal.vstr "t0".toList)).1 :=
  ⟨⟨List.nodup_nil, List.nodup_nil⟩,
    ingestPdfGraph_idempotent (GraphState.mk [] []) gW "doc.pdf".toList
      "PDF".toList (PyVal.vstr "t0".toList) ⟨List.nodup_nil, List.nodup_nil⟩⟩

end Integrator

end RatKernelEval
